import Mathlib

/-!
# Verification of the `symreg` metagrammar front end (`meta.py`)

Shallow embedding of the lexer (`MetaScanner`), the recursive-descent parser
(`MetaParser`), the generic tree walker (`GrammarWalker`), the indentation-aware
emitter (`Emitter`) and the round-trip emitter (`EBNFEmitter`), together with
theorems settling the specification claims about them.

Conventions of the embedding:
* Python namedtuples become constructors of `Node`; a bare Python list of nodes
  is itself a walkable value and becomes the `Node.list` constructor, so the
  parser's habit of storing raw lists (e.g. the alternatives of `Alt`, or the
  one-element `rule` list inside `Def`) is represented faithfully.
* Python exceptions become constructors of `Err`; an `Except Err` result models
  a computation that may raise.
* The lexer regex alternation is translated branch by branch in priority order;
  `\s` is modelled over its ASCII range (the grammar texts involved are ASCII).
* Recursion that Python drives by mutable cursors is modelled with an explicit
  fuel argument; fuel exhaustion is the distinguished error `Err.outOfFuel`,
  which the source can never raise, and the top-level entry points supply fuel
  large enough that it is unreachable for terminating runs.
-/

namespace Symreg

/-- Token kinds: the named groups of `MetaScanner.lexer`, plus the two
sentinels `START` and `EOF` synthesized by `MetaParser`. -/
inductive TKind where
  | NEWLINE | SPACE | COMMENT | SPECIAL | RULENAME | STRING
  | COLON | LPAREN | RPAREN | LBRACK | RBRACK | PLUS | STAR | PIPE
  | START | EOF
  deriving DecidableEq, Repr

/-- `Token = nt('Token', ['kind', 'text'])`. -/
structure Token where
  kind : TKind
  text : String
  deriving DecidableEq, Repr

/-- The AST node model of `meta.py`.  Each namedtuple field holds an arbitrary
Python value; in particular `Seq.args` and `Def.args` hold plain lists, which
are walkable values of their own, so lists are a `Node` constructor. -/
inductive Node where
  | Tok (text : String)                     -- special token (NAME, NUMBER, ...)
  | Lit (text : String)                     -- string literal
  | Ref (text : String)                     -- reference to a known rule
  | Seq (args : Node)                       -- Seq(args): args is a python list
  | Alt (args : Node)                       -- Alt(args): args is a list of lists
  | Rep (args : Node)                       -- 1..n repetitions
  | Opt (args : Node)                       -- 0..1 repetitions
  | Orp (args : Node)                       -- 0..n repetitions
  | Def (name : String) (args : Node)       -- Def(name, rule): rule is a list
  | Grammar (rules : Node)                  -- Grammar(defs): defs is a list
  | list (items : List Node)                -- a bare python list of nodes
  deriving Repr

/-- Python exceptions that the embedded code can raise. -/
inductive Err where
  /-- `AttributeError` from `m.end()` when `m is None`
      (`MetaScanner.tokens` evaluates `pos = m.end()` before testing `m`). -/
  | attributeError
  /-- the `SyntaxError('bad token at postition %i' % pos)` branch of
      `MetaScanner.tokens`; it is unreachable (see `tokens_never_lexBadToken`). -/
  | lexBadToken (pos : Nat)
  /-- `SyntaxError('expected %s but found %s' ...)` from `MetaParser.expect`. -/
  | expectedButFound (expected found : TKind)
  /-- `SyntaxError('ERROR unrecognized token.', token)` from `read_pattern`. -/
  | unrecognized (t : Token)
  /-- `AssertionError` from `wrap_last_as` ("tried to wrap as %r but nothing
      to wrap!"); carries the wrapper name interpolated into the message. -/
  | assertWrapFailed (wrapper : String)
  /-- `AttributeError: 'Def' object has no attribute 'rule'` from
      `GrammarWalker.children` on a `Def` node. -/
  | attributeErrorRule
  /-- `AssertionError('malformed result: ...')` from `GrammarWalker.children`. -/
  | assertChildrenMalformed
  /-- `AssertionError('cannot dedent any further!')` from `Emitter.dedent`. -/
  | assertDedent
  /-- visitor method applied to a node kind its dispatch can never receive. -/
  | badDispatch
  /-- `StopIteration` from advancing past the end of the token stream. -/
  | stopIteration
  /-- fuel exhaustion: an artifact of the embedding, never raised by the code. -/
  | outOfFuel
  deriving DecidableEq, Repr

/-! ## Lexer (`MetaScanner`) -/

/-- ASCII range of Python's `\s`. -/
def isSpaceChar (c : Char) : Bool :=
  c == ' ' || c == '\t' || c == '\n' || c == '\r' || c == '\x0b' || c == '\x0c'

/-- `[A-Z]` (the `SPECIAL` group). -/
def isUpperChar (c : Char) : Bool := 'A' ≤ c && c ≤ 'Z'

/-- `[a-z_]` (the `RULENAME` group). -/
def isRuleChar (c : Char) : Bool := ('a' ≤ c && c ≤ 'z') || c == '_'

/-- One step of `MetaScanner.lexer.match(text, pos)`: the regex alternatives in
priority order, each matching greedily; returns the token and the rest of the
input, or `none` when no alternative matches (Python: `m is None`). -/
def lexOne : List Char → Option (Token × List Char)
  | [] => none
  | c :: cs =>
    if c = '\n' then some (⟨.NEWLINE, "\n"⟩, cs)
    else if isSpaceChar c then
      -- `\s+`: greedy; note it continues over later newlines.
      some (⟨.SPACE, ⟨c :: cs.takeWhile isSpaceChar⟩⟩, cs.dropWhile isSpaceChar)
    else if c = '#' then
      -- `[#].*$` with MULTILINE: up to (excluding) the next newline.
      some (⟨.COMMENT, ⟨c :: cs.takeWhile (· ≠ '\n')⟩⟩, cs.dropWhile (· ≠ '\n'))
    else if isUpperChar c then
      some (⟨.SPECIAL, ⟨c :: cs.takeWhile isUpperChar⟩⟩, cs.dropWhile isUpperChar)
    else if isRuleChar c then
      some (⟨.RULENAME, ⟨c :: cs.takeWhile isRuleChar⟩⟩, cs.dropWhile isRuleChar)
    else if c = '\'' then
      -- `'[^']*'`
      match cs.dropWhile (· ≠ '\'') with
      | '\'' :: rest => some (⟨.STRING, ⟨c :: (cs.takeWhile (· ≠ '\'') ++ ['\''])⟩⟩, rest)
      | _ => none
    else if c = ':' then some (⟨.COLON, ":"⟩, cs)
    else if c = '(' then some (⟨.LPAREN, "("⟩, cs)
    else if c = ')' then some (⟨.RPAREN, ")"⟩, cs)
    else if c = '[' then some (⟨.LBRACK, "["⟩, cs)
    else if c = ']' then some (⟨.RBRACK, "]"⟩, cs)
    else if c = '+' then some (⟨.PLUS, "+"⟩, cs)
    else if c = '*' then some (⟨.STAR, "*"⟩, cs)
    else if c = '|' then some (⟨.PIPE, "|"⟩, cs)
    else none

/-- The loop of `MetaScanner.tokens`.  Faithful to the source, which runs
`pos = m.end()` *before* testing `if m:`, so a failed match raises
`AttributeError` and the `SyntaxError` branch is dead code. -/
def tokensAux : Nat → List Char → Except Err (List Token)
  | _, [] => .ok []
  | 0, _ :: _ => .error .outOfFuel
  | fuel + 1, c :: cs =>
    match lexOne (c :: cs) with
    | some (t, rest) =>
      match tokensAux fuel rest with
      | .ok ts => .ok (t :: ts)
      | .error e => .error e
    | none => .error .attributeError

/-- `MetaScanner().tokens(text)`, fully forced into a list. -/
def tokensList (cs : List Char) : Except Err (List Token) :=
  tokensAux (cs.length + 1) cs

/-! ## Parser (`MetaParser`) -/

/-- Python `text[1:-1]` (strip the quotes of a `STRING` token). -/
def stripQuotes (s : String) : String := ⟨(s.data.drop 1).dropLast⟩

/-- The return expression of `read_pattern`:
`Seq(alts[0]) if len(alts) == 1 else Alt(alts)`. -/
def mkPattern (alts : List (List Node)) : Node :=
  match alts with
  | [a] => .Seq (.list a)
  | _ => .Alt (.list (alts.map .list))

/-- `MetaParser.skip_any`: advance while the current token has the given kind. -/
def skipAny (kind : TKind) : Token → List Token → Except Err (Token × List Token)
  | cur, rest =>
    if cur.kind = kind then
      match rest with
      | [] => .error .stopIteration
      | t :: ts => skipAny kind t ts
    else .ok (cur, rest)

/-- `MetaParser.read_pattern(end_kind)`.  `alts`/`alt` are the accumulated
alternatives and the current insertion context (`self.here`); `cur`/`rest` are
the current token and the remaining stream.  Every loop iteration ends in
`self.advance()`, which is the step that consumes fuel. -/
def readPattern : Nat → TKind → List (List Node) → List Node → Token → List Token →
    Except Err (Node × Token × List Token)
  | 0, _, _, _, _, _ => .error .outOfFuel
  | fuel + 1, endKind, alts, alt, cur, rest =>
    if cur.kind = endKind then
      -- end of loop: alts.append(alt); Seq if single else Alt
      .ok (mkPattern (alts ++ [alt]), cur, rest)
    else
      match cur.kind with
      | .NEWLINE =>  -- newlines ok when end_kind != NEWLINE
        match rest with
        | [] => .error .stopIteration
        | t :: ts => readPattern fuel endKind alts alt t ts
      | .PIPE =>     -- start a new alternative
        match rest with
        | [] => .error .stopIteration
        | t :: ts => readPattern fuel endKind (alts ++ [alt]) [] t ts
      | .SPECIAL =>
        match rest with
        | [] => .error .stopIteration
        | t :: ts => readPattern fuel endKind alts (alt ++ [.Tok cur.text]) t ts
      | .RULENAME =>
        match rest with
        | [] => .error .stopIteration
        | t :: ts => readPattern fuel endKind alts (alt ++ [.Ref cur.text]) t ts
      | .LPAREN =>
        match rest with
        | [] => .error .stopIteration
        | t :: ts =>
          match readPattern fuel .RPAREN [] [] t ts with
          | .error e => .error e
          | .ok (n, _, r') =>  -- trailing advance() consumes the RPAREN
            match r' with
            | [] => .error .stopIteration
            | u :: us => readPattern fuel endKind alts (alt ++ [n]) u us
      | .LBRACK =>
        match rest with
        | [] => .error .stopIteration
        | t :: ts =>
          match readPattern fuel .RBRACK [] [] t ts with
          | .error e => .error e
          | .ok (n, _, r') =>
            match r' with
            | [] => .error .stopIteration
            | u :: us => readPattern fuel endKind alts (alt ++ [.Opt n]) u us
      | .STAR =>     -- wrap_last_as(Orp)
        match alt.getLast? with
        | none => .error (.assertWrapFailed "Orp")
        | some last =>
          match rest with
          | [] => .error .stopIteration
          | t :: ts => readPattern fuel endKind alts (alt.dropLast ++ [.Orp last]) t ts
      | .PLUS =>     -- wrap_last_as(Rep)
        match alt.getLast? with
        | none => .error (.assertWrapFailed "Rep")
        | some last =>
          match rest with
          | [] => .error .stopIteration
          | t :: ts => readPattern fuel endKind alts (alt.dropLast ++ [.Rep last]) t ts
      | .STRING =>
        match rest with
        | [] => .error .stopIteration
        | t :: ts => readPattern fuel endKind alts (alt ++ [.Lit (stripQuotes cur.text)]) t ts
      | _ => .error (.unrecognized cur)

/-- `MetaParser.read_def`: a rule name, a colon, then a pattern terminated by
`NEWLINE`; the pattern is appended to the fresh context list `rule` and the
result is `Def(name, rule)`. -/
def readDef (fuel : Nat) (cur : Token) (rest : List Token) :
    Except Err (Node × Token × List Token) :=
  if cur.kind = .RULENAME then
    match rest with
    | [] => .error .stopIteration
    | c1 :: r1 =>
      if c1.kind = .COLON then
        match r1 with
        | [] => .error .stopIteration
        | c2 :: r2 =>
          match readPattern fuel .NEWLINE [] [] c2 r2 with
          | .error e => .error e
          | .ok (p, c', r') => .ok (.Def cur.text (.list [p]), c', r')
      else .error (.expectedButFound .COLON c1.kind)
  else .error (.expectedButFound .RULENAME cur.kind)

/-- The `while self.token.kind != 'EOF'` loop of `MetaParser.parse`. -/
def parseDefs : Nat → List Node → Token → List Token → Except Err Node
  | 0, _, _, _ => .error .outOfFuel
  | fuel + 1, defs, cur, rest =>
    if cur.kind = .EOF then .ok (.Grammar (.list defs))
    else
      match skipAny .NEWLINE cur rest with
      | .error e => .error e
      | .ok (c, r) =>
        if c.kind = .EOF then parseDefs fuel defs c r  -- pass; loop re-checks
        else
          match readDef (fuel + 1) c r with
          | .error e => .error e
          | .ok (d, c', r') => parseDefs fuel (defs ++ [d]) c' r'

/-- `meta.parse(text)`: lex, drop `SPACE`/`COMMENT` tokens, append the `EOF`
sentinel, consume the initial `START` sentinel, and run the def loop. -/
def parse (text : String) : Except Err Node :=
  match tokensList text.data with
  | .error e => .error e
  | .ok toks =>
    let stream := toks.filter (fun t => !(t.kind == .SPACE || t.kind == .COMMENT))
        ++ [⟨.EOF, ""⟩]
    -- self.token = Token("START",''); expect('START') always succeeds and advances
    match stream with
    | [] => .error .stopIteration  -- unreachable: stream ends with the EOF sentinel
    | t :: ts => parseDefs (ts.length + 2) [] t ts

/-! ## Walker (`GrammarWalker`) -/

/-- Node kinds for dispatch: `type(node).__name__`. -/
inductive NKind where
  | Tok | Lit | Ref | Seq | Alt | Rep | Opt | Orp | Def | Grammar | list
  deriving DecidableEq, Repr

/-- `type(node).__name__`. -/
def nkind : Node → NKind
  | .Tok _ => .Tok
  | .Lit _ => .Lit
  | .Ref _ => .Ref
  | .Seq _ => .Seq
  | .Alt _ => .Alt
  | .Rep _ => .Rep
  | .Opt _ => .Opt
  | .Orp _ => .Orp
  | .Def _ _ => .Def
  | .Grammar _ => .Grammar
  | .list _ => .list

/-- `GrammarWalker.children`.  Faithful to the source: the `Def` branch reads
`node.rule`, but the `Def` namedtuple's fields are `name` and `args`, so that
access raises `AttributeError`.  The trailing `assert type(result) is list`
fires when `Grammar.rules` is not a list. -/
def children : Node → Except Err (List Node)
  | .Def _ _ => .error .attributeErrorRule          -- node.rule: no such attribute
  | .Grammar (.list rules) => .ok rules             -- result = node.rules
  | .Grammar _ => .error .assertChildrenMalformed   -- assert type(result) is list
  | .Seq a | .Alt a | .Rep a | .Opt a | .Orp a => .ok [a]  -- wrap as list
  | .Tok _ | .Lit _ | .Ref _ => .ok []              -- no children
  | .list items => .ok items

/-- A visitor object: the three method families looked up by name
(`walk`+kind, `enter`+kind, `leave`+kind), each optional per kind.
`σ` is the visitor's private state (e.g. the emitter's output). -/
structure Visitor (σ : Type) where
  custom : NKind → Option ((Node → σ → Except Err σ) → Node → σ → Except Err σ)
  enter : NKind → Option (Node → σ → Except Err σ)
  leave : NKind → Option (Node → σ → Except Err σ)

/-- `GrammarWalker.walk`: a full-control `walk`-method takes precedence and
receives the walker's own `walk` as continuation; otherwise dispatch `enter`,
walk the children in order, dispatch `leave`. -/
def walk (v : Visitor σ) : Nat → Node → σ → Except Err σ
  | 0, _, _ => .error .outOfFuel
  | fuel + 1, node, s =>
    match v.custom (nkind node) with
    | some f => f (walk v fuel) node s
    | none =>
      match (match v.enter (nkind node) with
             | some g => g node s
             | none => .ok s) with
      | .error e => .error e
      | .ok s1 =>
        match children node with
        | .error e => .error e
        | .ok cs =>
          match cs.foldlM (fun acc c => walk v fuel c acc) s1 with
          | .error e => .error e
          | .ok s2 =>
            match v.leave (nkind node) with
            | some g => g node s2
            | none => .ok s2

/-! ## Emitter base (`Emitter`) -/

/-- The sentinel classes `INDENT` and `DEDENT` can be passed to `emit`
alongside ordinary strings. -/
inductive EmitArg where
  | str (s : String)
  | INDENT
  | DEDENT
  deriving DecidableEq, Repr

/-- Emitter state: everything written to `emitFn` so far, and the current
indentation level (a Python int, so it can in principle go negative). -/
structure EmitState where
  out : String
  level : Int
  deriving DecidableEq, Repr

/-- `self.indent_str * self.level` (Python string repetition; empty when the
level is not positive). -/
def indentation (st : EmitState) : String :=
  String.join (List.replicate st.level.toNat "    ")

/-- `Emitter.newline`: `emitFn('\n' + indent_str * level)`. -/
def emitNewline (st : EmitState) : EmitState :=
  { st with out := st.out ++ "\n" ++ indentation st }

/-- `Emitter.emit`, one argument.  On `DEDENT` the level is decremented first
and the assertion checked *before* `newline()` writes anything, so a failed
dedent leaves the output untouched.  The error case also returns the state at
the moment the exception is raised. -/
def emit1 : EmitArg → EmitState → EmitState × Option Err
  | .str s, st =>
    if s = "\n" then (emitNewline st, none)
    else ({ st with out := st.out ++ s }, none)
  | .INDENT, st => (emitNewline { st with level := st.level + 1 }, none)
  | .DEDENT, st =>
    let st' : EmitState := { st with level := st.level - 1 }
    if st'.level < 0 then (st', some .assertDedent)  -- assert self.level >= 0
    else (emitNewline st', none)

/-- Feed a sequence of arguments to `Emitter.emit`, stopping at the first
raised exception; the state component records what reached the sink. -/
def runEmits : List EmitArg → EmitState → EmitState × Option Err
  | [], st => (st, none)
  | a :: as, st =>
    match emit1 a st with
    | (st', none) => runEmits as st'
    | (st', some e) => (st', some e)

/-- `emit` as an `Except` computation, for use inside visitor methods. -/
def emitS (s : String) (st : EmitState) : Except Err EmitState :=
  match emit1 (.str s) st with
  | (st', none) => .ok st'
  | (_, some e) => .error e

/-- `Emitter.between(walk, nodes, sep)`: walk the first node, then alternate
`emit(sep)` / walk for the remaining ones. -/
def between (kont : Node → EmitState → Except Err EmitState) :
    List Node → String → EmitState → Except Err EmitState
  | [], _, st => .ok st
  | n :: rest, sep, st =>
    match kont n st with
    | .error e => .error e
    | .ok st' => betweenTail kont rest sep st'
where
  betweenTail (kont : Node → EmitState → Except Err EmitState) :
      List Node → String → EmitState → Except Err EmitState
    | [], _, st => .ok st
    | n :: rest, sep, st =>
      match emitS sep st with
      | .error e => .error e
      | .ok st' =>
        match kont n st' with
        | .error e => .error e
        | .ok st'' => betweenTail kont rest sep st''

/-! ## Round-trip emitter (`EBNFEmitter`) -/

/-- `EBNFEmitter.enterTok`: `self.emit(node.text)`. -/
def enterTokFn : Node → EmitState → Except Err EmitState
  | .Tok t, st => emitS t st
  | _, _ => .error .badDispatch

/-- `EBNFEmitter.enterLit`: `self.emitAll("'", node.text, "'")`. -/
def enterLitFn : Node → EmitState → Except Err EmitState
  | .Lit t, st => do emitS t (← emitS "'" st) >>= emitS "'"
  | _, _ => .error .badDispatch

/-- `EBNFEmitter.enterRef`: `self.emit(node.text)`. -/
def enterRefFn : Node → EmitState → Except Err EmitState
  | .Ref t, st => emitS t st
  | _, _ => .error .badDispatch

/-- `EBNFEmitter.walkDef`: `emitAll(node.name, ': '); walk(node.args); emit('\n')`. -/
def walkDefFn (kont : Node → EmitState → Except Err EmitState) :
    Node → EmitState → Except Err EmitState
  | .Def name args, st => do
    let st ← emitS name st
    let st ← emitS ": " st
    let st ← kont args st
    emitS "\n" st
  | _, _ => .error .badDispatch

/-- `EBNFEmitter.walkSeq`: `between(walk, node.args, ' ')` (iterating the
stored python list). -/
def walkSeqFn (kont : Node → EmitState → Except Err EmitState) :
    Node → EmitState → Except Err EmitState
  | .Seq (.list items), st => between kont items " " st
  | _, _ => .error .badDispatch

/-- `EBNFEmitter.walklist`: lists are treated just like sequences. -/
def walklistFn (kont : Node → EmitState → Except Err EmitState) :
    Node → EmitState → Except Err EmitState
  | .list items, st => between kont items " " st
  | _, _ => .error .badDispatch

/-- `EBNFEmitter.walkAlt`: parenthesized, `' | '`-separated alternatives. -/
def walkAltFn (kont : Node → EmitState → Except Err EmitState) :
    Node → EmitState → Except Err EmitState
  | .Alt (.list items), st => do
    let st ← emitS "(" st
    let st ← between kont items " | " st
    emitS ")" st
  | _, _ => .error .badDispatch

/-- `EBNFEmitter.walkOpt`: bracketed contents. -/
def walkOptFn (kont : Node → EmitState → Except Err EmitState) :
    Node → EmitState → Except Err EmitState
  | .Opt a, st => do
    let st ← emitS "[" st
    let st ← kont a st
    emitS "]" st
  | _, _ => .error .badDispatch

/-- `EBNFEmitter.walkOrp`: parenthesized contents with a `*` suffix. -/
def walkOrpFn (kont : Node → EmitState → Except Err EmitState) :
    Node → EmitState → Except Err EmitState
  | .Orp a, st => do
    let st ← emitS "(" st
    let st ← kont a st
    emitS ")*" st
  | _, _ => .error .badDispatch

/-- The `EBNFEmitter` visitor: its `walk...` methods exist for `Def`, `Seq`,
`list`, `Alt`, `Opt` and `Orp` (note: none for `Rep` or `Grammar`), and its
`enter...` methods for `Tok`, `Lit` and `Ref`; it has no `leave...` methods. -/
def ebnfVisitor : Visitor EmitState where
  custom k :=
    match k with
    | .Def => some walkDefFn
    | .Seq => some walkSeqFn
    | .list => some walklistFn
    | .Alt => some walkAltFn
    | .Opt => some walkOptFn
    | .Orp => some walkOrpFn
    | _ => none
  enter k :=
    match k with
    | .Tok => some enterTokFn
    | .Lit => some enterLitFn
    | .Ref => some enterRefFn
    | _ => none
  leave _ := none

/-- `emit = lambda node: GrammarWalker(EBNFEmitter()).walk(node)`: the text the
round-trip emitter writes for `node`, starting from an empty sink at level 0. -/
def ebnfString (fuel : Nat) (node : Node) : Except Err String :=
  match walk ebnfVisitor fuel node ⟨"", 0⟩ with
  | .ok st => .ok st.out
  | .error e => .error e

/-! ## Support definitions for the theorems -/

/-- Sum of `+1` per `INDENT` and `-1` per `DEDENT`: the net indentation effect
of a sequence of emitter arguments. -/
def balance : List EmitArg → Int
  | [] => 0
  | .INDENT :: as => 1 + balance as
  | .DEDENT :: as => -1 + balance as
  | .str _ :: as => balance as

/-- A small concrete visitor used to exercise the walker's dispatch precedence:
it registers both a full-control override and an enter hook for `Tok`.  Its
state is the list of handler invocations. -/
def demoVisitor : Visitor (List String) where
  custom k :=
    match k with
    | .Tok => some (fun _ _ s => .ok (s ++ ["custom Tok"]))
    | _ => none
  enter k :=
    match k with
    | .Tok => some (fun _ s => .ok (s ++ ["enter Tok"]))
    | _ => none
  leave k :=
    match k with
    | .Tok => some (fun _ s => .ok (s ++ ["leave Tok"]))
    | _ => none

/-- An atom of the flat fragment: a leaf whose stored text re-lexes as the
single token it came from (`SPECIAL` text, `RULENAME` text, or a quote-free
literal body). -/
def flatAtom : Node → Bool
  | .Tok s => !s.data.isEmpty && s.data.all isUpperChar
  | .Ref s => !s.data.isEmpty && s.data.all isRuleChar
  | .Lit s => s.data.all (· ≠ '\'')
  | _ => false

/-- A well-formed rule name (`RULENAME` text). -/
def goodName (s : String) : Bool := !s.data.isEmpty && s.data.all isRuleChar

/-- A rule of the flat fragment: `Def(name, [Seq(atoms)])` with a nonempty
flat atom list. -/
def flatDef : Node → Bool
  | .Def name (.list [.Seq (.list atoms)]) =>
    goodName name && !atoms.isEmpty && atoms.all flatAtom
  | _ => false

/-- A grammar of the flat fragment: every rule pattern is a nonempty flat
sequence of terminals, literals and references — no alternation, repetition,
optionals or grouping. -/
def flatGrammar : Node → Bool
  | .Grammar (.list defs) => defs.all flatDef
  | _ => false

/-- The text the round-trip emitter produces for one flat atom. -/
def atomText : Node → String
  | .Tok s => s
  | .Ref s => s
  | .Lit s => "'" ++ s ++ "'"
  | _ => ""

/-- Texts of the atoms after the first, each preceded by the separating
space. -/
def spacedText : List Node → String
  | [] => ""
  | a :: rest => " " ++ atomText a ++ spacedText rest

/-- Space-joined atom texts. -/
def atomsText : List Node → String
  | [] => ""
  | a :: rest => atomText a ++ spacedText rest

/-- The emitted line for one flat rule. -/
def defLineText : Node → String
  | .Def name (.list [.Seq (.list atoms)]) => name ++ ": " ++ atomsText atoms ++ "\n"
  | _ => ""

/-- Emitted text for a list of flat rules. -/
def defsText : List Node → String
  | [] => ""
  | d :: ds => defLineText d ++ defsText ds

/-- Emitted text for a flat grammar. -/
def grammarText : Node → String
  | .Grammar (.list defs) => defsText defs
  | _ => ""

/-- The token the lexer recovers from one flat atom's text. -/
def atomToken : Node → Token
  | .Tok s => ⟨.SPECIAL, s⟩
  | .Ref s => ⟨.RULENAME, s⟩
  | .Lit s => ⟨.STRING, "'" ++ s ++ "'"⟩
  | _ => ⟨.EOF, ""⟩

/-- Raw tokens for the atoms after the first, each preceded by the
separating `SPACE` token. -/
def spacedRaw : List Node → List Token
  | [] => []
  | a :: rest => ⟨.SPACE, " "⟩ :: atomToken a :: spacedRaw rest

/-- Raw tokens (separators included) for a space-joined atom list. -/
def atomsRaw : List Node → List Token
  | [] => []
  | a :: rest => atomToken a :: spacedRaw rest

/-- Raw token sequence the lexer produces for one emitted flat rule line. -/
def defRaw : Node → List Token
  | .Def name (.list [.Seq (.list atoms)]) =>
    ⟨.RULENAME, name⟩ :: ⟨.COLON, ":"⟩ :: ⟨.SPACE, " "⟩ ::
      (atomsRaw atoms ++ [⟨.NEWLINE, "\n"⟩])
  | _ => []

/-- Raw token sequence for a list of emitted flat rule lines. -/
def defsRaw : List Node → List Token
  | [] => []
  | d :: ds => defRaw d ++ defsRaw ds

/-- The tokens of one emitted flat rule line after the `SPACE`/`COMMENT`
filter that `parse` applies. -/
def defToks : Node → List Token
  | .Def name (.list [.Seq (.list atoms)]) =>
    ⟨.RULENAME, name⟩ :: ⟨.COLON, ":"⟩ :: (atoms.map atomToken ++ [⟨.NEWLINE, "
"⟩])
  | _ => []

/-- Filtered tokens for a list of flat rule lines. -/
def defsToks : List Node → List Token
  | [] => []
  | d :: ds => defToks d ++ defsToks ds

/-- Run `read_pattern` with the current token re-attached to the front of the
stream (the parser keeps `self.token` separate from the iterator; this
runner reunites them for stating lemmas about whole streams). -/
def runRP (fuel : Nat) (endKind : TKind) (alts : List (List Node))
    (alt : List Node) : List Token → Except Err (Node × Token × List Token)
  | [] => .error .stopIteration
  | t :: ts => readPattern fuel endKind alts alt t ts

/-- Run the def loop with the current token re-attached to the stream. -/
def parseDefsRun (fuel : Nat) (defs : List Node) :
    List Token → Except Err Node
  | [] => .error .stopIteration
  | t :: ts => parseDefs fuel defs t ts

/-! # Theorems -/

/-- The `SyntaxError('bad token at postition %i' % pos)` branch of
`MetaScanner.tokens` is dead code: `pos = m.end()` runs first, so a failed
match always raises `AttributeError` instead. -/
theorem tokensAux_never_lexBadToken :
    ∀ (fuel : Nat) (cs : List Char) (p : Nat),
      tokensAux fuel cs ≠ .error (.lexBadToken p) := by
  intro fuel
  induction fuel with
  | zero =>
    intro cs p h
    cases cs <;> simp [tokensAux] at h
  | succ f ih =>
    intro cs p h
    cases cs with
    | nil => simp [tokensAux] at h
    | cons c cs =>
      rw [tokensAux] at h
      split at h
      next t rest _ =>
        split at h
        next ts _ => exact absurd h (by simp)
        next e heq =>
          injection h with h'
          exact ih rest p (h' ▸ heq)
      next => exact absurd h (by simp)

/-- Claim C7 (code bug): at an input position where no token pattern matches,
`MetaScanner.tokens` does not fail with the offset-carrying lex error; it
raises `AttributeError` (from `m.end()` on `None`), and the offset-carrying
`SyntaxError` is unreachable for every input. -/
theorem c7_lex_failure_is_attribute_error :
    tokensList "=".data = .error .attributeError ∧
      ∀ (cs : List Char) (p : Nat), tokensList cs ≠ .error (.lexBadToken p) :=
  ⟨rfl, fun cs p => tokensAux_never_lexBadToken (cs.length + 1) cs p⟩

/-- Claim C4 (code bug): the child-extraction step of `GrammarWalker.children`
on a `Def` node always fails with `AttributeError` (the source reads
`node.rule`, but the `Def` namedtuple's fields are `name` and `args`), instead
of returning the rule's pattern list. -/
theorem c4_children_def_fails (name : String) (args : Node) :
    children (.Def name args) = .error .attributeErrorRule := rfl

/-- Claim C3 (code bug): a line-end preceded by blanks is not delivered to the
parser as a `NEWLINE` token.  The greedy `SPACE` pattern `\s+` absorbs the
newline of `" \n"` into a single dropped `SPACE` token, so parsing
`"a: b \n"` never sees the rule's terminator and fails at end of input. -/
theorem c3_newline_after_blank_lost :
    tokensList " \n".data = .ok [⟨.SPACE, " \n"⟩] ∧
      parse "a: b \n" = .error (.unrecognized ⟨.EOF, ""⟩) :=
  ⟨rfl, rfl⟩

/-- Claim C5 counterexample: parsing the input `greeting: 'hi' NAME` exactly
as given (no trailing newline) does not yield an AST at all — it raises a
parse error, because the rule's pattern must be terminated by `NEWLINE`. -/
theorem c5_counterexample :
    parse "greeting: 'hi' NAME" = .error (.unrecognized ⟨.EOF, ""⟩) := rfl

/-- Claim C5 (amended): with the terminating newline present, parsing yields
`Grammar([Def("greeting", [Seq([Lit("hi"), Tok("NAME")])])])`: the quotes are
stripped and the uppercase name becomes a `Tok`, but the `Def`'s second
component is a one-element list holding the `Seq`, not the bare `Seq`. -/
theorem c5_amended :
    parse "greeting: 'hi' NAME\n" =
      .ok (.Grammar (.list [.Def "greeting"
        (.list [.Seq (.list [.Lit "hi", .Tok "NAME"])])])) := rfl

/-- Claim C8 (confirmed): when the visitor registers a full-control override
for a node's kind, `GrammarWalker.walk` executes exactly that override,
handing it the walker's own continuation; the automatic enter/leave dispatch
is not additionally run for that node, whatever hooks are registered. -/
theorem c8_override_precedence {σ : Type} (v : Visitor σ) (fuel : Nat)
    (node : Node) (s : σ)
    (f : (Node → σ → Except Err σ) → Node → σ → Except Err σ)
    (h : v.custom (nkind node) = some f) :
    walk v (fuel + 1) node s = f (walk v fuel) node s := by
  rw [walk, h]

/-- Witness for C8: `demoVisitor` registers an override and both hooks for
`Tok`; walking a `Tok` records only the override's invocation. -/
theorem c8_witness :
    walk demoVisitor 1 (.Tok "NAME") [] = .ok ["custom Tok"] :=
  Eq.trans (c8_override_precedence demoVisitor 0 (.Tok "NAME") [] _ rfl) rfl

/-- Claim C6 counterexample: a bare `*` does abort parsing, but with the
`wrap_last_as` assertion error naming the attempted wrapper — not an error
carrying the expected-vs-actual token kinds (no parser error carries a
position at all). -/
theorem c6_counterexample :
    parse "x: *\n" = .error (.assertWrapFailed "Orp") ∧
      ∀ e a : TKind, Err.assertWrapFailed "Orp" ≠ .expectedButFound e a :=
  ⟨rfl, fun _ _ h => by cases h⟩

/-- Claim C6 (amended): pattern `a*` parses to `Seq([Orp(Ref(a))])` — the
postfix operator wraps exactly the immediately preceding emitted node — and a
`*` or `+` reached with nothing yet emitted in the current grouping fails
with the `wrap_last_as` assertion error naming the wrapper (`Orp`
respectively `Rep`), which carries neither token kinds nor a position. -/
theorem c6_amended :
    parse "x: a*\n" =
      .ok (.Grammar (.list [.Def "x"
        (.list [.Seq (.list [.Orp (.Ref "a")])])])) ∧
    (∀ (fuel : Nat) (ek : TKind) (alts : List (List Node)) (cur : Token)
        (rest : List Token), cur.kind = .STAR → cur.kind ≠ ek →
      readPattern (fuel + 1) ek alts [] cur rest =
        .error (.assertWrapFailed "Orp")) ∧
    (∀ (fuel : Nat) (ek : TKind) (alts : List (List Node)) (cur : Token)
        (rest : List Token), cur.kind = .PLUS → cur.kind ≠ ek →
      readPattern (fuel + 1) ek alts [] cur rest =
        .error (.assertWrapFailed "Rep")) := by
  refine ⟨rfl, ?_, ?_⟩ <;>
    · intro fuel ek alts cur rest hk hne
      simp only [readPattern, if_neg hne, hk, List.getLast?]
      rw [if_neg (hk ▸ hne)]

/-- Witness for C6: the amended theorem applied at a concrete bare `*`. -/
theorem c6_witness :
    readPattern 1 .NEWLINE [] [] ⟨.STAR, "*"⟩ [] =
      .error (.assertWrapFailed "Orp") :=
  c6_amended.2.1 0 .NEWLINE [] ⟨.STAR, "*"⟩ [] rfl (by decide)

/-- A run whose indent/dedent prefix sums never push the level negative
raises nothing and lands at the level predicted by the balance. -/
theorem runEmits_nonneg :
    ∀ (args : List EmitArg) (st : EmitState),
      (∀ i, i ≤ args.length → 0 ≤ st.level + balance (args.take i)) →
      (runEmits args st).2 = none ∧
        (runEmits args st).1.level = st.level + balance args := by
  intro args
  induction args with
  | nil => intro st _; simp [runEmits, balance]
  | cons a as ih =>
    intro st hpre
    have hstep : ∀ (st' : EmitState), emit1 a st = (st', none) →
        st'.level = st.level + balance [a] →
        (runEmits (a :: as) st).2 = none ∧
          (runEmits (a :: as) st).1.level = st.level + balance (a :: as) := by
      intro st' he hl
      have hpre' : ∀ i, i ≤ as.length → 0 ≤ st'.level + balance (as.take i) := by
        intro i hi
        have := hpre (i + 1) (by simpa using hi)
        have hb : balance ((a :: as).take (i + 1)) =
            balance [a] + balance (as.take i) := by
          cases a <;> simp [balance]
        rw [hb] at this
        rw [hl]
        omega
      have := ih st' hpre'
      have hb2 : balance (a :: as) = balance [a] + balance as := by
        cases a <;> simp [balance]
      simp only [runEmits, he]
      exact ⟨this.1, by rw [this.2, hl, hb2]; ring⟩
    cases a with
    | str s =>
      rcases hs : emit1 (.str s) st with ⟨st', e⟩
      have : e = none ∧ st'.level = st.level := by
        by_cases h : s = "\n" <;>
          simp [emit1, h, emitNewline] at hs <;>
          simp [← hs.1, ← hs.2]
      exact hstep st' (by rw [hs, this.1]) (by simp [balance, this.2])
    | INDENT =>
      refine hstep (emitNewline { st with level := st.level + 1 }) rfl ?_
      simp [emitNewline, balance]
    | DEDENT =>
      have h1 := hpre 1 (by simp)
      have hnn : ¬ (st.level - 1 < 0) := by
        simp only [List.take, balance] at h1; omega
      refine hstep (emitNewline { st with level := st.level - 1 }) ?_ ?_
      · simp [emit1, hnn]
      · simp [emitNewline, balance]
        omega

/-- Running a prefix of a nonneg-balanced sequence also raises nothing and
its level is the prefix balance. -/
theorem runEmits_take (args : List EmitArg) (st : EmitState)
    (hpre : ∀ i, i ≤ args.length → 0 ≤ st.level + balance (args.take i))
    (i : Nat) (hi : i ≤ args.length) :
    (runEmits (args.take i) st).2 = none ∧
      (runEmits (args.take i) st).1.level = st.level + balance (args.take i) := by
  refine runEmits_nonneg (args.take i) st ?_
  intro j hj
  rw [List.take_take]
  rcases Nat.le_total j i with h | h
  · rw [Nat.min_eq_left h]
    exact hpre j (le_trans h hi)
  · rw [Nat.min_eq_right h]
    exact hpre i hi

/-- Claim C9 (confirmed): a `DEDENT` issued at level zero raises the
assertion immediately — the sink receives no further output (the returned
state's `out` is unchanged; only the already-decremented level differs); and
any emission sequence whose indent/dedent prefix counts never go negative
and cancel overall completes without error, with every prefix leaving the
level non-negative and the whole run returning to level zero. -/
theorem c9_indentation_balance :
    (∀ (rest : List EmitArg) (st : EmitState), st.level = 0 →
      runEmits (.DEDENT :: rest) st = ({ st with level := -1 }, some .assertDedent)) ∧
    (∀ (args : List EmitArg) (st : EmitState), st.level = 0 →
      (∀ i, i ≤ args.length → 0 ≤ balance (args.take i)) →
      balance args = 0 →
      (runEmits args st).2 = none ∧
        (runEmits args st).1.level = 0 ∧
        ∀ i, i ≤ args.length →
          (runEmits (args.take i) st).2 = none ∧
            0 ≤ (runEmits (args.take i) st).1.level) := by
  constructor
  · intro rest st h
    simp [runEmits, emit1, h]
  · intro args st h0 hpre hz
    have hpre' : ∀ i, i ≤ args.length → 0 ≤ st.level + balance (args.take i) := by
      intro i hi; rw [h0]; simpa using hpre i hi
    have hmain := runEmits_nonneg args st hpre'
    refine ⟨hmain.1, by rw [hmain.2, h0, hz]; ring, ?_⟩
    intro i hi
    have := runEmits_take args st hpre' i hi
    exact ⟨this.1, by rw [this.2, h0]; simpa using hpre i hi⟩

/-- Invariant of a successful `read_pattern`: the loop stops exactly on the
terminator kind, the stream position only moves forward (the returned cursor
is a suffix of the input), and the returned node is the `Seq`/`Alt` collapse
of the accumulated alternatives extended by at least one more. -/
theorem readPattern_ok_inv :
    ∀ (fuel : Nat) (ek : TKind) (alts : List (List Node)) (alt : List Node)
      (cur : Token) (rest : List Token) (n : Node) (c : Token) (r : List Token),
      readPattern fuel ek alts alt cur rest = .ok (n, c, r) →
      c.kind = ek ∧ (c :: r) <:+ (cur :: rest) ∧
        ∃ As, As ≠ [] ∧ n = mkPattern (alts ++ As) := by
  intro fuel
  induction fuel with
  | zero => intro ek alts alt cur rest n c r h; simp [readPattern] at h
  | succ f ih =>
    intro ek alts alt cur rest n c r h
    simp only [readPattern] at h
    by_cases hek : cur.kind = ek
    · rw [if_pos hek] at h
      injection h with h'
      simp only [Prod.mk.injEq] at h'
      obtain ⟨rfl, rfl, rfl⟩ := h'
      exact ⟨hek, List.suffix_refl _, [alt], by simp, rfl⟩
    · rw [if_neg hek] at h
      cases hk : cur.kind with
      | NEWLINE =>
        simp only [hk] at h
        cases rest with
        | nil => simp at h
        | cons t ts =>
          obtain ⟨h1, h2, As, hne, hmk⟩ := ih ek alts alt t ts n c r h
          exact ⟨h1, h2.trans (List.suffix_cons cur _), As, hne, hmk⟩
      | PIPE =>
        simp only [hk] at h
        cases rest with
        | nil => simp at h
        | cons t ts =>
          obtain ⟨h1, h2, As, hne, hmk⟩ := ih ek (alts ++ [alt]) [] t ts n c r h
          rw [List.append_assoc] at hmk
          exact ⟨h1, h2.trans (List.suffix_cons cur _), [alt] ++ As, by simp, hmk⟩
      | SPECIAL =>
        simp only [hk] at h
        cases rest with
        | nil => simp at h
        | cons t ts =>
          obtain ⟨h1, h2, As, hne, hmk⟩ := ih ek alts (alt ++ [.Tok cur.text]) t ts n c r h
          exact ⟨h1, h2.trans (List.suffix_cons cur _), As, hne, hmk⟩
      | RULENAME =>
        simp only [hk] at h
        cases rest with
        | nil => simp at h
        | cons t ts =>
          obtain ⟨h1, h2, As, hne, hmk⟩ := ih ek alts (alt ++ [.Ref cur.text]) t ts n c r h
          exact ⟨h1, h2.trans (List.suffix_cons cur _), As, hne, hmk⟩
      | STRING =>
        simp only [hk] at h
        cases rest with
        | nil => simp at h
        | cons t ts =>
          obtain ⟨h1, h2, As, hne, hmk⟩ :=
            ih ek alts (alt ++ [.Lit (stripQuotes cur.text)]) t ts n c r h
          exact ⟨h1, h2.trans (List.suffix_cons cur _), As, hne, hmk⟩
      | LPAREN =>
        simp only [hk] at h
        cases rest with
        | nil => simp at h
        | cons t ts =>
          rcases hnest : readPattern f .RPAREN [] [] t ts with e | ⟨n0, c0, r0⟩ <;>
            simp only [hnest] at h
          · simp at h
          obtain ⟨_, hsuf0, _⟩ := ih .RPAREN [] [] t ts n0 c0 r0 hnest
          cases r0 with
          | nil => simp at h
          | cons u us =>
            obtain ⟨h1, h2, As, hne, hmk⟩ := ih ek alts (alt ++ [n0]) u us n c r h
            have husr : (u :: us) <:+ (cur :: t :: ts) :=
              ((List.suffix_cons c0 (u :: us)).trans hsuf0).trans
                (List.suffix_cons cur _)
            exact ⟨h1, h2.trans husr, As, hne, hmk⟩
      | LBRACK =>
        simp only [hk] at h
        cases rest with
        | nil => simp at h
        | cons t ts =>
          rcases hnest : readPattern f .RBRACK [] [] t ts with e | ⟨n0, c0, r0⟩ <;>
            simp only [hnest] at h
          · simp at h
          obtain ⟨_, hsuf0, _⟩ := ih .RBRACK [] [] t ts n0 c0 r0 hnest
          cases r0 with
          | nil => simp at h
          | cons u us =>
            obtain ⟨h1, h2, As, hne, hmk⟩ := ih ek alts (alt ++ [.Opt n0]) u us n c r h
            have husr : (u :: us) <:+ (cur :: t :: ts) :=
              ((List.suffix_cons c0 (u :: us)).trans hsuf0).trans
                (List.suffix_cons cur _)
            exact ⟨h1, h2.trans husr, As, hne, hmk⟩
      | STAR =>
        simp only [hk] at h
        rcases hl : alt.getLast? with _ | last <;> simp only [hl] at h
        · simp at h
        · cases rest with
          | nil => simp at h
          | cons t ts =>
            obtain ⟨h1, h2, As, hne, hmk⟩ :=
              ih ek alts (alt.dropLast ++ [.Orp last]) t ts n c r h
            exact ⟨h1, h2.trans (List.suffix_cons cur _), As, hne, hmk⟩
      | PLUS =>
        simp only [hk] at h
        rcases hl : alt.getLast? with _ | last <;> simp only [hl] at h
        · simp at h
        · cases rest with
          | nil => simp at h
          | cons t ts =>
            obtain ⟨h1, h2, As, hne, hmk⟩ :=
              ih ek alts (alt.dropLast ++ [.Rep last]) t ts n c r h
            exact ⟨h1, h2.trans (List.suffix_cons cur _), As, hne, hmk⟩
      | SPACE => simp [hk] at h
      | COMMENT => simp [hk] at h
      | COLON => simp [hk] at h
      | RPAREN => simp [hk] at h
      | RBRACK => simp [hk] at h
      | START => simp [hk] at h
      | EOF => simp [hk] at h

/-- A successful `read_def` stops on a `NEWLINE` token drawn from its input
stream. -/
theorem readDef_ok_inv (fuel : Nat) (cur : Token) (rest : List Token)
    (d : Node) (c : Token) (r : List Token)
    (h : readDef fuel cur rest = .ok (d, c, r)) :
    c.kind = .NEWLINE ∧ (c :: r) <:+ (cur :: rest) := by
  unfold readDef at h
  by_cases h1 : cur.kind = .RULENAME
  · rw [if_pos h1] at h
    cases rest with
    | nil => simp at h
    | cons c1 r1 =>
      simp only [] at h
      by_cases h2 : c1.kind = .COLON
      · rw [if_pos h2] at h
        cases r1 with
        | nil => simp at h
        | cons c2 r2 =>
          simp only [] at h
          rcases hp : readPattern fuel .NEWLINE [] [] c2 r2 with e | ⟨p, c', r'⟩ <;>
            simp only [hp] at h
          · simp at h
          · obtain ⟨hk, hsuf, _⟩ := readPattern_ok_inv fuel .NEWLINE [] [] c2 r2 p c' r' hp
            injection h with h'
            simp only [Prod.mk.injEq] at h'
            obtain ⟨rfl, rfl, rfl⟩ := h'
            exact ⟨hk, (hsuf.trans (List.suffix_cons c1 _)).trans (List.suffix_cons cur _)⟩
      · rw [if_neg h2] at h; simp at h
  · rw [if_neg h1] at h; simp at h

/-- If the remaining stream holds no `NEWLINE` token, the def loop can only
succeed by having read no further rule. -/
theorem parseDefs_no_newline :
    ∀ (fuel : Nat) (defs : List Node) (cur : Token) (rest : List Token) (G : Node),
      (∀ t ∈ cur :: rest, t.kind ≠ .NEWLINE) →
      parseDefs fuel defs cur rest = .ok G → G = .Grammar (.list defs) := by
  intro fuel
  induction fuel with
  | zero => intro defs cur rest G _ h; simp [parseDefs] at h
  | succ f ih =>
    intro defs cur rest G hnl h
    rw [parseDefs] at h
    by_cases he : cur.kind = .EOF
    · rw [if_pos he] at h
      injection h with h'
      exact h'.symm
    · rw [if_neg he] at h
      have hsk : skipAny .NEWLINE cur rest = .ok (cur, rest) := by
        unfold skipAny
        rw [if_neg (hnl cur (by simp))]
      simp only [hsk] at h
      rw [if_neg he] at h
      rcases hrd : readDef (f + 1) cur rest with e | ⟨d, c', r'⟩ <;>
        simp only [hrd] at h
      · simp at h
      · obtain ⟨hk, hsuf⟩ := readDef_ok_inv (f + 1) cur rest d c' r' hrd
        exact absurd hk (hnl c' (hsuf.subset (by simp)))

/-- A token produced by one lexer step is a `NEWLINE` only if the input
starts with a line-end character. -/
theorem lexOne_newline_head :
    ∀ (c : Char) (cs : List Char) (t : Token) (rest : List Char),
      lexOne (c :: cs) = some (t, rest) → t.kind = .NEWLINE → c = '\n' := by
  intro c cs t rest h hk
  rw [lexOne] at h
  by_cases h1 : c = '\n'
  · exact h1
  rw [if_neg h1] at h
  by_cases h2 : isSpaceChar c = true
  · rw [if_pos h2] at h
    simp only [Option.some.injEq, Prod.mk.injEq] at h
    rw [← h.1] at hk
    simp at hk
  rw [if_neg h2] at h
  by_cases h3 : c = '#'
  · rw [if_pos h3] at h
    simp only [Option.some.injEq, Prod.mk.injEq] at h
    rw [← h.1] at hk
    simp at hk
  rw [if_neg h3] at h
  by_cases h4 : isUpperChar c = true
  · rw [if_pos h4] at h
    simp only [Option.some.injEq, Prod.mk.injEq] at h
    rw [← h.1] at hk
    simp at hk
  rw [if_neg h4] at h
  by_cases h5 : isRuleChar c = true
  · rw [if_pos h5] at h
    simp only [Option.some.injEq, Prod.mk.injEq] at h
    rw [← h.1] at hk
    simp at hk
  rw [if_neg h5] at h
  by_cases h6 : c = '\''
  · rw [if_pos h6] at h
    split at h
    · simp only [Option.some.injEq, Prod.mk.injEq] at h
      rw [← h.1] at hk
      simp at hk
    · exact absurd h (by simp)
  rw [if_neg h6] at h
  by_cases h7 : c = ':'
  · rw [if_pos h7] at h
    simp only [Option.some.injEq, Prod.mk.injEq] at h
    rw [← h.1] at hk
    simp at hk
  rw [if_neg h7] at h
  by_cases h8 : c = '('
  · rw [if_pos h8] at h
    simp only [Option.some.injEq, Prod.mk.injEq] at h
    rw [← h.1] at hk
    simp at hk
  rw [if_neg h8] at h
  by_cases h9 : c = ')'
  · rw [if_pos h9] at h
    simp only [Option.some.injEq, Prod.mk.injEq] at h
    rw [← h.1] at hk
    simp at hk
  rw [if_neg h9] at h
  by_cases h10 : c = '['
  · rw [if_pos h10] at h
    simp only [Option.some.injEq, Prod.mk.injEq] at h
    rw [← h.1] at hk
    simp at hk
  rw [if_neg h10] at h
  by_cases h11 : c = ']'
  · rw [if_pos h11] at h
    simp only [Option.some.injEq, Prod.mk.injEq] at h
    rw [← h.1] at hk
    simp at hk
  rw [if_neg h11] at h
  by_cases h12 : c = '+'
  · rw [if_pos h12] at h
    simp only [Option.some.injEq, Prod.mk.injEq] at h
    rw [← h.1] at hk
    simp at hk
  rw [if_neg h12] at h
  by_cases h13 : c = '*'
  · rw [if_pos h13] at h
    simp only [Option.some.injEq, Prod.mk.injEq] at h
    rw [← h.1] at hk
    simp at hk
  rw [if_neg h13] at h
  by_cases h14 : c = '|'
  · rw [if_pos h14] at h
    simp only [Option.some.injEq, Prod.mk.injEq] at h
    rw [← h.1] at hk
    simp at hk
  rw [if_neg h14] at h
  exact absurd h (by simp)

/-- One lexer step only discards a prefix of the input. -/
theorem lexOne_rest_suffix :
    ∀ (cs : List Char) (t : Token) (rest : List Char),
      lexOne cs = some (t, rest) → rest <:+ cs := by
  intro cs t rest h
  cases cs with
  | nil => simp [lexOne] at h
  | cons c cs =>
    rw [lexOne] at h
    by_cases h1 : c = '\n'
    · rw [if_pos h1] at h
      simp only [Option.some.injEq, Prod.mk.injEq] at h
      rw [← h.2]
      exact List.suffix_cons c cs
    rw [if_neg h1] at h
    by_cases h2 : isSpaceChar c = true
    · rw [if_pos h2] at h
      simp only [Option.some.injEq, Prod.mk.injEq] at h
      rw [← h.2]
      exact (List.dropWhile_suffix _).trans (List.suffix_cons c cs)
    rw [if_neg h2] at h
    by_cases h3 : c = '#'
    · rw [if_pos h3] at h
      simp only [Option.some.injEq, Prod.mk.injEq] at h
      rw [← h.2]
      exact (List.dropWhile_suffix _).trans (List.suffix_cons c cs)
    rw [if_neg h3] at h
    by_cases h4 : isUpperChar c = true
    · rw [if_pos h4] at h
      simp only [Option.some.injEq, Prod.mk.injEq] at h
      rw [← h.2]
      exact (List.dropWhile_suffix _).trans (List.suffix_cons c cs)
    rw [if_neg h4] at h
    by_cases h5 : isRuleChar c = true
    · rw [if_pos h5] at h
      simp only [Option.some.injEq, Prod.mk.injEq] at h
      rw [← h.2]
      exact (List.dropWhile_suffix _).trans (List.suffix_cons c cs)
    rw [if_neg h5] at h
    by_cases h6 : c = '\''
    · rw [if_pos h6] at h
      split at h
      next us heq =>
        simp only [Option.some.injEq, Prod.mk.injEq] at h
        rw [← h.2]
        have hsf : us <:+ List.dropWhile (fun x => x ≠ '\'') cs := by
          rw [heq]
          exact List.suffix_cons _ us
        exact (hsf.trans (List.dropWhile_suffix _)).trans (List.suffix_cons c cs)
      next x heq => exact absurd h (by simp)
    rw [if_neg h6] at h
    by_cases h7 : c = ':'
    · rw [if_pos h7] at h
      simp only [Option.some.injEq, Prod.mk.injEq] at h
      rw [← h.2]
      exact List.suffix_cons c cs
    rw [if_neg h7] at h
    by_cases h8 : c = '('
    · rw [if_pos h8] at h
      simp only [Option.some.injEq, Prod.mk.injEq] at h
      rw [← h.2]
      exact List.suffix_cons c cs
    rw [if_neg h8] at h
    by_cases h9 : c = ')'
    · rw [if_pos h9] at h
      simp only [Option.some.injEq, Prod.mk.injEq] at h
      rw [← h.2]
      exact List.suffix_cons c cs
    rw [if_neg h9] at h
    by_cases h10 : c = '['
    · rw [if_pos h10] at h
      simp only [Option.some.injEq, Prod.mk.injEq] at h
      rw [← h.2]
      exact List.suffix_cons c cs
    rw [if_neg h10] at h
    by_cases h11 : c = ']'
    · rw [if_pos h11] at h
      simp only [Option.some.injEq, Prod.mk.injEq] at h
      rw [← h.2]
      exact List.suffix_cons c cs
    rw [if_neg h11] at h
    by_cases h12 : c = '+'
    · rw [if_pos h12] at h
      simp only [Option.some.injEq, Prod.mk.injEq] at h
      rw [← h.2]
      exact List.suffix_cons c cs
    rw [if_neg h12] at h
    by_cases h13 : c = '*'
    · rw [if_pos h13] at h
      simp only [Option.some.injEq, Prod.mk.injEq] at h
      rw [← h.2]
      exact List.suffix_cons c cs
    rw [if_neg h13] at h
    by_cases h14 : c = '|'
    · rw [if_pos h14] at h
      simp only [Option.some.injEq, Prod.mk.injEq] at h
      rw [← h.2]
      exact List.suffix_cons c cs
    rw [if_neg h14] at h
    exact absurd h (by simp)

/-- Lexing a text without line-end characters yields no `NEWLINE` tokens. -/
theorem tokensAux_no_newline :
    ∀ (fuel : Nat) (cs : List Char) (ts : List Token),
      '\n' ∉ cs → tokensAux fuel cs = .ok ts →
      ∀ t ∈ ts, t.kind ≠ .NEWLINE := by
  intro fuel
  induction fuel with
  | zero =>
    intro cs ts hni h
    cases cs <;> simp [tokensAux] at h
    subst h; simp
  | succ f ih =>
    intro cs ts hni h
    cases cs with
    | nil =>
      simp [tokensAux] at h
      subst h; simp
    | cons c cs =>
      rw [tokensAux] at h
      rcases hl : lexOne (c :: cs) with _ | ⟨t0, rest⟩ <;> simp only [hl] at h
      · simp at h
      · rcases ht : tokensAux f rest with e | ts' <;> simp only [ht] at h
        · simp at h
        · injection h with h'
          subst h'
          intro t hmem
          rcases List.mem_cons.mp hmem with rfl | hmem'
          · intro hk
            exact hni (lexOne_newline_head c cs t rest hl hk ▸ List.mem_cons_self c cs)
          · refine ih rest ts' ?_ ht t hmem'
            intro hmm
            exact hni ((lexOne_rest_suffix (c :: cs) t0 rest hl).subset hmm)

/-- Claim C10 (confirmed): end-of-input is never accepted in place of the
`NEWLINE` terminator of a rule's pattern — `read_pattern` on the `EOF`
sentinel raises the unrecognized-token parse error; consequently a text
without a line-end can never contribute a rule (a nonempty grammar needs a
`NEWLINE` token), and a concrete unterminated rule fails. -/
theorem c10_eof_not_accepted_for_newline :
    (∀ (fuel : Nat) (alts : List (List Node)) (alt : List Node) (s : String)
        (rest : List Token),
      readPattern (fuel + 1) .NEWLINE alts alt ⟨.EOF, s⟩ rest =
        .error (.unrecognized ⟨.EOF, s⟩)) ∧
    (∀ (g : String) (G : Node), '\n' ∉ g.data → parse g = .ok G →
      G = .Grammar (.list [])) ∧
    parse "a: b" = .error (.unrecognized ⟨.EOF, ""⟩) := by
  refine ⟨fun fuel alts alt s rest => rfl, ?_, rfl⟩
  intro g G hni h
  rw [parse] at h
  rcases htl : tokensList g.data with e | toks <;> simp only [htl] at h
  · simp at h
  · have hnl := tokensAux_no_newline (g.data.length + 1) g.data toks hni htl
    rcases hst : toks.filter (fun t => !(t.kind == .SPACE || t.kind == .COMMENT))
        ++ [(⟨.EOF, ""⟩ : Token)] with _ | ⟨t, ts⟩
    · exact absurd hst (by simp)
    · rw [hst] at h
      refine parseDefs_no_newline (ts.length + 2) [] t ts G ?_ h
      intro u hu
      have : u ∈ toks.filter (fun t => !(t.kind == .SPACE || t.kind == .COMMENT))
          ++ [(⟨.EOF, ""⟩ : Token)] := hst ▸ hu
      rcases List.mem_append.mp this with hf | hsing
      · exact hnl u (List.mem_filter.mp hf).1
      · simp only [List.mem_singleton] at hsing
        subst hsing
        simp

/-- Witness for C10: the empty text has no line-end and parses to the empty
grammar, satisfying the theorem's hypotheses. -/
theorem c10_witness :
    Node.Grammar (.list []) = .Grammar (.list []) :=
  c10_eof_not_accepted_for_newline.2.1 "" (.Grammar (.list [])) (by decide) rfl

/-- Claim C2 counterexample: `x: a | b` parses with the two alternatives
stored as bare lists, not `Seq`-wrapped: the resulting `Alt` differs
structurally from `Alt([Seq([Ref(a)]), Seq([Ref(b)])])`. -/
theorem c2_counterexample :
    parse "x: a | b\n" =
      .ok (.Grammar (.list [.Def "x"
        (.list [.Alt (.list [.list [.Ref "a"], .list [.Ref "b"]])])])) ∧
    Node.Alt (.list [.list [.Ref "a"], .list [.Ref "b"]]) ≠
      .Alt (.list [.Seq (.list [.Ref "a"]), .Seq (.list [.Ref "b"])]) :=
  ⟨rfl, fun hc => by
    injection hc with h1
    injection h1 with h2
    injection h2 with h3 h4
    injection h3⟩

/-- Claim C2 (amended): a pattern with exactly one accumulated alternative is
returned as that alternative wrapped in `Seq`; otherwise the result is an
`Alt` of at least two alternatives, each stored as a bare list (not wrapped
in `Seq`).  In particular `a` parses to `Seq([Ref(a)])` and `a | b` parses to
`Alt([[Ref(a)], [Ref(b)]])`, and an `Alt` of one alternative is never
produced. -/
theorem c2_amended :
    (∀ (fuel : Nat) (ek : TKind) (cur : Token) (rest : List Token)
        (n : Node) (c : Token) (r : List Token),
      readPattern fuel ek [] [] cur rest = .ok (n, c, r) →
      (∃ items, n = .Seq (.list items)) ∨
        (∃ ls : List (List Node),
          n = .Alt (.list (ls.map .list)) ∧ 2 ≤ ls.length)) ∧
    parse "x: a\n" =
      .ok (.Grammar (.list [.Def "x" (.list [.Seq (.list [.Ref "a"])])])) ∧
    parse "x: a | b\n" =
      .ok (.Grammar (.list [.Def "x"
        (.list [.Alt (.list [.list [.Ref "a"], .list [.Ref "b"]])])])) := by
  refine ⟨?_, rfl, rfl⟩
  intro fuel ek cur rest n c r h
  obtain ⟨_, _, As, hne, hmk⟩ := readPattern_ok_inv fuel ek [] [] cur rest n c r h
  rw [List.nil_append] at hmk
  match As, hne with
  | [a], _ => exact .inl ⟨a, hmk⟩
  | a :: b :: bs, _ =>
    refine .inr ⟨a :: b :: bs, ?_, Nat.le_add_left 2 bs.length⟩
    rw [hmk]; rfl

/-- Witness for C2: the amended shape theorem applied to the one-atom
pattern `a` (terminated by `NEWLINE`). -/
theorem c2_witness :
    (∃ items, Node.Seq (.list [.Ref "a"]) = .Seq (.list items)) ∨
      (∃ ls : List (List Node),
        Node.Seq (.list [.Ref "a"]) = .Alt (.list (ls.map .list)) ∧
        2 ≤ ls.length) :=
  c2_amended.1 2 .NEWLINE ⟨.RULENAME, "a"⟩ [⟨.NEWLINE, "\n"⟩]
    (.Seq (.list [.Ref "a"])) ⟨.NEWLINE, "\n"⟩ [] rfl

/-- Witness for C9: a concrete balanced sequence at level zero. -/
theorem c9_witness :
    (runEmits [.INDENT, .str "x", .DEDENT] ⟨"", 0⟩).2 = none ∧
      (runEmits [.INDENT, .str "x", .DEDENT] ⟨"", 0⟩).1.level = 0 :=
  have h := c9_indentation_balance.2 [.INDENT, .str "x", .DEDENT] ⟨"", 0⟩ rfl
    (by decide) (by decide)
  ⟨h.1, h.2.1⟩

/-! ## Character-class and scanning lemmas for the round-trip proof -/

/-- A rule-name character is not a newline. -/
theorem ruleChar_not_nl {c : Char} (h : isRuleChar c = true) : ¬ c = '\n' := by
  intro hc; subst hc; exact absurd h (by decide)

/-- A rule-name character is not a hash. -/
theorem ruleChar_not_hash {c : Char} (h : isRuleChar c = true) : ¬ c = '#' := by
  intro hc; subst hc; exact absurd h (by decide)

/-- A rule-name character is not whitespace. -/
theorem ruleChar_not_space {c : Char} (h : isRuleChar c = true) :
    ¬ isSpaceChar c = true := by
  intro hs
  simp only [isRuleChar, Bool.or_eq_true, Bool.and_eq_true, decide_eq_true_eq,
    beq_iff_eq] at h
  simp only [isSpaceChar, Bool.or_eq_true, beq_iff_eq] at hs
  rcases h with ⟨h1, _⟩ | rfl
  · rcases hs with ((((rfl | rfl) | rfl) | rfl) | rfl) | rfl <;>
      exact absurd h1 (by decide)
  · exact absurd hs (by decide)

/-- A rule-name character is not uppercase. -/
theorem ruleChar_not_upper {c : Char} (h : isRuleChar c = true) :
    ¬ isUpperChar c = true := by
  intro hu
  simp only [isRuleChar, Bool.or_eq_true, Bool.and_eq_true, decide_eq_true_eq,
    beq_iff_eq] at h
  simp only [isUpperChar, Bool.and_eq_true, decide_eq_true_eq] at hu
  rcases h with ⟨h1, _⟩ | rfl
  · exact absurd (le_trans h1 hu.2) (by decide)
  · exact absurd hu.2 (by decide)

/-- An uppercase character is not a newline. -/
theorem upperChar_not_nl {c : Char} (h : isUpperChar c = true) : ¬ c = '\n' := by
  intro hc; subst hc; exact absurd h (by decide)

/-- An uppercase character is not a hash. -/
theorem upperChar_not_hash {c : Char} (h : isUpperChar c = true) : ¬ c = '#' := by
  intro hc; subst hc; exact absurd h (by decide)

/-- An uppercase character is not whitespace. -/
theorem upperChar_not_space {c : Char} (h : isUpperChar c = true) :
    ¬ isSpaceChar c = true := by
  intro hs
  simp only [isUpperChar, Bool.and_eq_true, decide_eq_true_eq] at h
  simp only [isSpaceChar, Bool.or_eq_true, beq_iff_eq] at hs
  rcases hs with ((((rfl | rfl) | rfl) | rfl) | rfl) | rfl <;>
    exact absurd h.1 (by decide)

/-- `takeWhile` runs through a block that wholly satisfies the predicate. -/
theorem takeWhile_append_all {α : Type} (p : α → Bool) :
    ∀ (l1 l2 : List α), (∀ x ∈ l1, p x = true) →
      (l1 ++ l2).takeWhile p = l1 ++ l2.takeWhile p := by
  intro l1
  induction l1 with
  | nil => intro l2 _; simp
  | cons a l ih =>
    intro l2 h
    simp [List.takeWhile_cons, h a (List.mem_cons_self a l),
      ih l2 (fun x hx => h x (List.mem_cons_of_mem a hx))]

/-- `dropWhile` runs through a block that wholly satisfies the predicate. -/
theorem dropWhile_append_all {α : Type} (p : α → Bool) :
    ∀ (l1 l2 : List α), (∀ x ∈ l1, p x = true) →
      (l1 ++ l2).dropWhile p = l2.dropWhile p := by
  intro l1
  induction l1 with
  | nil => intro l2 _; simp
  | cons a l ih =>
    intro l2 h
    simp [List.dropWhile_cons, h a (List.mem_cons_self a l),
      ih l2 (fun x hx => h x (List.mem_cons_of_mem a hx))]

/-- `takeWhile` stops at a head that fails the predicate. -/
theorem takeWhile_stop {α : Type} (p : α → Bool) (l : List α)
    (h : ∀ x, l.head? = some x → p x = false) : l.takeWhile p = [] := by
  cases l with
  | nil => rfl
  | cons a t => simp [List.takeWhile_cons, h a rfl]

/-- `dropWhile` stops at a head that fails the predicate. -/
theorem dropWhile_stop {α : Type} (p : α → Bool) (l : List α)
    (h : ∀ x, l.head? = some x → p x = false) : l.dropWhile p = l := by
  cases l with
  | nil => rfl
  | cons a t => simp [List.dropWhile_cons, h a rfl]

/-- The lexer recognizes a well-formed rule name followed by a non-name
character as one `RULENAME` token. -/
theorem lexOne_rule (s : String) (hs : goodName s = true) (r : List Char)
    (hr : ∀ x, r.head? = some x → isRuleChar x = false) :
    lexOne (s.data ++ r) = some (⟨.RULENAME, s⟩, r) := by
  have hall : ∀ x ∈ s.data, isRuleChar x = true := by
    simp only [goodName, Bool.and_eq_true, List.all_eq_true] at hs
    exact hs.2
  have hne : s.data ≠ [] := by
    intro he
    unfold goodName at hs
    rw [he] at hs
    simp at hs
  rcases hcs : s.data with _ | ⟨c, cs⟩
  · exact absurd hcs hne
  · have hc : isRuleChar c = true := hall c (by rw [hcs]; exact List.mem_cons_self c cs)
    have hcsall : ∀ x ∈ cs, isRuleChar x = true := fun x hx =>
      hall x (by rw [hcs]; exact List.mem_cons_of_mem c hx)
    rw [List.cons_append, lexOne, if_neg (ruleChar_not_nl hc),
      if_neg (ruleChar_not_space hc), if_neg (ruleChar_not_hash hc),
      if_neg (ruleChar_not_upper hc), if_pos hc,
      takeWhile_append_all _ cs r hcsall, takeWhile_stop _ r hr,
      dropWhile_append_all _ cs r hcsall, dropWhile_stop _ r hr]
    simp [← hcs]

/-- The lexer recognizes a nonempty uppercase run followed by a non-uppercase
character as one `SPECIAL` token. -/
theorem lexOne_upper (s : String) (hne : s.data ≠ [])
    (hall : ∀ x ∈ s.data, isUpperChar x = true) (r : List Char)
    (hr : ∀ x, r.head? = some x → isUpperChar x = false) :
    lexOne (s.data ++ r) = some (⟨.SPECIAL, s⟩, r) := by
  rcases hcs : s.data with _ | ⟨c, cs⟩
  · exact absurd hcs hne
  · have hc : isUpperChar c = true := hall c (by rw [hcs]; exact List.mem_cons_self c cs)
    have hcsall : ∀ x ∈ cs, isUpperChar x = true := fun x hx =>
      hall x (by rw [hcs]; exact List.mem_cons_of_mem c hx)
    rw [List.cons_append, lexOne, if_neg (upperChar_not_nl hc),
      if_neg (upperChar_not_space hc), if_neg (upperChar_not_hash hc), if_pos hc,
      takeWhile_append_all _ cs r hcsall, takeWhile_stop _ r hr,
      dropWhile_append_all _ cs r hcsall, dropWhile_stop _ r hr]
    simp [← hcs]

/-- The lexer recognizes a quoted, quote-free body as one `STRING` token. -/
theorem lexOne_string (s : String) (hq : ∀ x ∈ s.data, ¬ x = '\'')
    (r : List Char) :
    lexOne ('\'' :: (s.data ++ '\'' :: r)) = some (⟨.STRING, "'" ++ s ++ "'"⟩, r) := by
  have hp : ∀ x ∈ s.data, (fun y => decide (y ≠ '\'')) x = true := by
    intro x hx; simpa using hq x hx
  rw [lexOne, if_neg (by decide), if_neg (by decide), if_neg (by decide),
    if_neg (by decide), if_neg (by decide), if_pos rfl]
  rw [dropWhile_append_all _ s.data ('\'' :: r) hp,
    takeWhile_append_all _ s.data ('\'' :: r) hp]
  simp [String.ext_iff, String.data_append]

/-- The lexer turns a colon into one `COLON` token. -/
theorem lexOne_colon (r : List Char) : lexOne (':' :: r) = some (⟨.COLON, ":"⟩, r) := by
  rw [lexOne, if_neg (by decide), if_neg (by decide), if_neg (by decide),
    if_neg (by decide), if_neg (by decide), if_neg (by decide), if_pos rfl]

/-- The lexer turns a single blank followed by non-whitespace into one
`SPACE " "` token. -/
theorem lexOne_space1 (r : List Char)
    (hr : ∀ x, r.head? = some x → isSpaceChar x = false) :
    lexOne (' ' :: r) = some (⟨.SPACE, " "⟩, r) := by
  rw [lexOne, if_neg (by decide), if_pos (by decide),
    takeWhile_stop _ r hr, dropWhile_stop _ r hr]

/-- The lexer turns a line-end into one `NEWLINE` token. -/
theorem lexOne_nl (r : List Char) : lexOne ('\n' :: r) = some (⟨.NEWLINE, "\n"⟩, r) := by
  rw [lexOne, if_pos rfl]

/-- One lexer step always consumes the head character: what remains is a
suffix of the input's tail. -/
theorem lexOne_tail_suffix :
    ∀ (c : Char) (cs : List Char) (t : Token) (rest : List Char),
      lexOne (c :: cs) = some (t, rest) → rest <:+ cs := by
  intro c cs t rest h
  rw [lexOne] at h
  by_cases h1 : c = '\n'
  · rw [if_pos h1] at h
    simp only [Option.some.injEq, Prod.mk.injEq] at h
    rw [← h.2]
  rw [if_neg h1] at h
  by_cases h2 : isSpaceChar c = true
  · rw [if_pos h2] at h
    simp only [Option.some.injEq, Prod.mk.injEq] at h
    rw [← h.2]
    exact List.dropWhile_suffix _
  rw [if_neg h2] at h
  by_cases h3 : c = '#'
  · rw [if_pos h3] at h
    simp only [Option.some.injEq, Prod.mk.injEq] at h
    rw [← h.2]
    exact List.dropWhile_suffix _
  rw [if_neg h3] at h
  by_cases h4 : isUpperChar c = true
  · rw [if_pos h4] at h
    simp only [Option.some.injEq, Prod.mk.injEq] at h
    rw [← h.2]
    exact List.dropWhile_suffix _
  rw [if_neg h4] at h
  by_cases h5 : isRuleChar c = true
  · rw [if_pos h5] at h
    simp only [Option.some.injEq, Prod.mk.injEq] at h
    rw [← h.2]
    exact List.dropWhile_suffix _
  rw [if_neg h5] at h
  by_cases h6 : c = '\''
  · rw [if_pos h6] at h
    split at h
    next us heq =>
      simp only [Option.some.injEq, Prod.mk.injEq] at h
      rw [← h.2]
      have hsf : us <:+ List.dropWhile (fun x => x ≠ '\'') cs := by
        rw [heq]
        exact List.suffix_cons _ us
      exact hsf.trans (List.dropWhile_suffix _)
    next x heq => exact absurd h (by simp)
  rw [if_neg h6] at h
  by_cases h7 : c = ':'
  · rw [if_pos h7] at h
    simp only [Option.some.injEq, Prod.mk.injEq] at h
    rw [← h.2]
  rw [if_neg h7] at h
  by_cases h8 : c = '('
  · rw [if_pos h8] at h
    simp only [Option.some.injEq, Prod.mk.injEq] at h
    rw [← h.2]
  rw [if_neg h8] at h
  by_cases h9 : c = ')'
  · rw [if_pos h9] at h
    simp only [Option.some.injEq, Prod.mk.injEq] at h
    rw [← h.2]
  rw [if_neg h9] at h
  by_cases h10 : c = '['
  · rw [if_pos h10] at h
    simp only [Option.some.injEq, Prod.mk.injEq] at h
    rw [← h.2]
  rw [if_neg h10] at h
  by_cases h11 : c = ']'
  · rw [if_pos h11] at h
    simp only [Option.some.injEq, Prod.mk.injEq] at h
    rw [← h.2]
  rw [if_neg h11] at h
  by_cases h12 : c = '+'
  · rw [if_pos h12] at h
    simp only [Option.some.injEq, Prod.mk.injEq] at h
    rw [← h.2]
  rw [if_neg h12] at h
  by_cases h13 : c = '*'
  · rw [if_pos h13] at h
    simp only [Option.some.injEq, Prod.mk.injEq] at h
    rw [← h.2]
  rw [if_neg h13] at h
  by_cases h14 : c = '|'
  · rw [if_pos h14] at h
    simp only [Option.some.injEq, Prod.mk.injEq] at h
    rw [← h.2]
  rw [if_neg h14] at h
  exact absurd h (by simp)

/-- Length form of `lexOne_tail_suffix`. -/
theorem lexOne_shrink {c : Char} {cs : List Char} {t : Token} {rest : List Char}
    (h : lexOne (c :: cs) = some (t, rest)) : rest.length ≤ cs.length :=
  (lexOne_tail_suffix c cs t rest h).length_le

/-- The lexer loop's value does not depend on the fuel once the fuel exceeds
the input length. -/
theorem tokensAux_congr :
    ∀ (f : Nat) (cs : List Char) (g : Nat), cs.length < f → cs.length < g →
      tokensAux f cs = tokensAux g cs := by
  intro f
  induction f with
  | zero => intro cs g hf _; omega
  | succ f ih =>
    intro cs g hf hg
    cases cs with
    | nil => cases g <;> rfl
    | cons c cs =>
      cases g with
      | zero => simp at hg
      | succ g' =>
        rw [tokensAux, tokensAux]
        rcases hl : lexOne (c :: cs) with _ | ⟨t, rest⟩ <;> simp only [hl]
        have hlen := lexOne_shrink hl
        simp only [List.length_cons] at hf hg
        rw [ih rest g' (by omega) (by omega)]

/-- Unfolding one lexer step of `tokensList`. -/
theorem tokensList_step (c : Char) (cs : List Char) (t : Token) (rest : List Char)
    (h : lexOne (c :: cs) = some (t, rest)) :
    tokensList (c :: cs) =
      (match tokensList rest with
       | .ok ts => .ok (t :: ts)
       | .error e => .error e) := by
  unfold tokensList
  rw [tokensAux]
  simp only [h]
  have hlen := lexOne_shrink h
  rw [tokensAux_congr ((c :: cs).length) rest (rest.length + 1)
    (by simp only [List.length_cons]; omega) (by omega)]

/-- General form of `tokensList_step`: any input on which `lexOne` succeeds. -/
theorem tokensList_stepL (l : List Char) (t : Token) (rest : List Char)
    (h : lexOne l = some (t, rest)) :
    tokensList l =
      (match tokensList rest with
       | .ok ts => .ok (t :: ts)
       | .error e => .error e) := by
  cases l with
  | nil => simp [lexOne] at h
  | cons c cs => exact tokensList_step c cs t rest h

/-- The first character of a flat atom's emitted text is not whitespace. -/
theorem atomText_head_not_space (a : Node) (ha : flatAtom a = true) (l : List Char) :
    ∀ x, ((atomText a).data ++ l).head? = some x → isSpaceChar x = false := by
  cases a with
  | Tok s =>
    simp only [flatAtom, Bool.and_eq_true, List.all_eq_true] at ha
    rcases hcs : s.data with _ | ⟨c, cs⟩
    · rw [hcs] at ha; simp at ha
    · intro x hx
      rw [atomText, hcs] at hx
      simp only [List.cons_append, List.head?_cons, Option.some.injEq] at hx
      subst hx
      exact (Bool.eq_false_iff).mpr
        (upperChar_not_space (ha.2 c (by rw [hcs]; exact List.mem_cons_self c cs)))
  | Ref s =>
    simp only [flatAtom, Bool.and_eq_true, List.all_eq_true] at ha
    rcases hcs : s.data with _ | ⟨c, cs⟩
    · rw [hcs] at ha; simp at ha
    · intro x hx
      rw [atomText, hcs] at hx
      simp only [List.cons_append, List.head?_cons, Option.some.injEq] at hx
      subst hx
      exact (Bool.eq_false_iff).mpr
        (ruleChar_not_space (ha.2 c (by rw [hcs]; exact List.mem_cons_self c cs)))
  | Lit s =>
    intro x hx
    rw [atomText] at hx
    simp only [String.data_append, List.append_assoc, List.cons_append,
      List.singleton_append, List.head?_cons, Option.some.injEq] at hx
    subst hx
    decide
  | Seq a => simp [flatAtom] at ha
  | Alt a => simp [flatAtom] at ha
  | Rep a => simp [flatAtom] at ha
  | Opt a => simp [flatAtom] at ha
  | Orp a => simp [flatAtom] at ha
  | Def n a => simp [flatAtom] at ha
  | Grammar r => simp [flatAtom] at ha
  | list l2 => simp [flatAtom] at ha

/-- After an atom the stream continues with a blank or the line-end: neither
can extend an uppercase or rule-name run. -/
theorem spaced_head_bound (rest : List Node) (r : List Char) :
    ∀ x, ((spacedText rest).data ++ '\n' :: r).head? = some x →
      isUpperChar x = false ∧ isRuleChar x = false := by
  cases rest with
  | nil =>
    intro x hx
    rw [show (spacedText []).data = [] from rfl] at hx
    simp only [List.nil_append, List.head?_cons, Option.some.injEq] at hx
    subst hx
    exact ⟨by decide, by decide⟩
  | cons b bs =>
    intro x hx
    rw [spacedText] at hx
    simp only [String.data_append, List.append_assoc, List.singleton_append,
      List.cons_append, List.head?_cons, Option.some.injEq] at hx
    subst hx
    exact ⟨by decide, by decide⟩

/-- One emitted flat atom re-lexes to exactly its original token. -/
theorem lex_atom_step (a : Node) (ha : flatAtom a = true) (r : List Char)
    (hu : ∀ x, r.head? = some x → isUpperChar x = false)
    (hn : ∀ x, r.head? = some x → isRuleChar x = false) :
    tokensList ((atomText a).data ++ r) =
      (match tokensList r with
       | .ok ts => .ok (atomToken a :: ts)
       | .error e => .error e) := by
  cases a with
  | Tok s =>
    simp only [flatAtom, Bool.and_eq_true, List.all_eq_true] at ha
    have hne : s.data ≠ [] := by
      intro he; rw [he] at ha; simp at ha
    exact tokensList_stepL _ _ _ (lexOne_upper s hne ha.2 r hu)
  | Ref s =>
    exact tokensList_stepL _ _ _ (lexOne_rule s ha r hn)
  | Lit s =>
    have hq : ∀ x ∈ s.data, ¬ x = '\'' := by
      simp only [flatAtom, List.all_eq_true, decide_eq_true_eq] at ha
      exact ha
    have hshape : (atomText (.Lit s)).data ++ r = '\'' :: (s.data ++ '\'' :: r) := by
      rw [atomText]
      simp [String.data_append, List.append_assoc]
    rw [hshape]
    exact tokensList_stepL _ _ _ (lexOne_string s hq r)
  | Seq a => simp [flatAtom] at ha
  | Alt a => simp [flatAtom] at ha
  | Rep a => simp [flatAtom] at ha
  | Opt a => simp [flatAtom] at ha
  | Orp a => simp [flatAtom] at ha
  | Def n a => simp [flatAtom] at ha
  | Grammar rl => simp [flatAtom] at ha
  | list l2 => simp [flatAtom] at ha

/-- Re-lexing the space-separated continuation of an atom list. -/
theorem lex_spaced :
    ∀ (rest : List Node) (r : List Char), rest.all flatAtom = true →
      tokensList ((spacedText rest).data ++ '\n' :: r) =
        (match tokensList r with
         | .ok ts => .ok (spacedRaw rest ++ ⟨.NEWLINE, "\n"⟩ :: ts)
         | .error e => .error e) := by
  intro rest
  induction rest with
  | nil =>
    intro r _
    rw [show (spacedText []).data = [] from rfl, List.nil_append]
    rw [tokensList_stepL _ _ _ (lexOne_nl r)]
    rcases tokensList r with e | ts <;> simp [spacedRaw]
  | cons b bs ih =>
    intro r hall
    simp only [List.all_cons, Bool.and_eq_true] at hall
    have hshape : (spacedText (b :: bs)).data ++ '\n' :: r =
        ' ' :: ((atomText b).data ++ ((spacedText bs).data ++ '\n' :: r)) := by
      rw [spacedText]
      simp [String.data_append, List.append_assoc]
    rw [hshape]
    rw [tokensList_stepL _ _ _ (lexOne_space1 _ (atomText_head_not_space b hall.1 _))]
    rw [lex_atom_step b hall.1 _
      (fun x hx => (spaced_head_bound bs r x hx).1)
      (fun x hx => (spaced_head_bound bs r x hx).2)]
    rw [ih r hall.2]
    rcases tokensList r with e | ts <;> simp [spacedRaw]

/-- Re-lexing an emitted flat atom list followed by the line-end. -/
theorem lex_atoms (atoms : List Node) (r : List Char)
    (hall : atoms.all flatAtom = true) :
    tokensList ((atomsText atoms).data ++ '\n' :: r) =
      (match tokensList r with
       | .ok ts => .ok (atomsRaw atoms ++ ⟨.NEWLINE, "\n"⟩ :: ts)
       | .error e => .error e) := by
  cases atoms with
  | nil =>
    rw [show (atomsText []).data = [] from rfl, List.nil_append]
    rw [tokensList_stepL _ _ _ (lexOne_nl r)]
    rcases tokensList r with e | ts <;> simp [atomsRaw]
  | cons a rest =>
    simp only [List.all_cons, Bool.and_eq_true] at hall
    have hshape : (atomsText (a :: rest)).data ++ '\n' :: r =
        (atomText a).data ++ ((spacedText rest).data ++ '\n' :: r) := by
      rw [atomsText]
      simp [String.data_append, List.append_assoc]
    rw [hshape]
    rw [lex_atom_step a hall.1 _
      (fun x hx => (spaced_head_bound rest r x hx).1)
      (fun x hx => (spaced_head_bound rest r x hx).2)]
    rw [lex_spaced rest r hall.2]
    rcases tokensList r with e | ts <;> simp [atomsRaw]

/-- Inversion of the flat-rule predicate. -/
theorem flatDef_inv (d : Node) (h : flatDef d = true) :
    ∃ name atoms, d = .Def name (.list [.Seq (.list atoms)]) ∧
      goodName name = true ∧ atoms ≠ [] ∧ atoms.all flatAtom = true := by
  cases d <;> try exact Bool.noConfusion h
  case Def name args =>
    cases args <;> try exact Bool.noConfusion h
    case list items =>
      rcases items with _ | ⟨p, rest⟩
      · exact Bool.noConfusion h
      rcases rest with _ | ⟨q, qrest⟩
      · cases p <;> try exact Bool.noConfusion h
        case Seq pargs =>
          cases pargs <;> try exact Bool.noConfusion h
          case list atoms =>
            simp only [flatDef, Bool.and_eq_true] at h
            refine ⟨name, atoms, rfl, h.1.1, ?_, h.2⟩
            intro hc
            subst hc
            simpa using h.1.2
      · cases p <;> try exact Bool.noConfusion h
        case Seq pargs =>
          cases pargs <;> exact Bool.noConfusion h

/-- Inversion of the flat-grammar predicate. -/
theorem flatGrammar_inv (G : Node) (h : flatGrammar G = true) :
    ∃ defs, G = .Grammar (.list defs) ∧ defs.all flatDef = true := by
  cases G <;> try exact Bool.noConfusion h
  case Grammar rules =>
    cases rules <;> try exact Bool.noConfusion h
    case list defs =>
      exact ⟨defs, rfl, h⟩

/-- Re-lexing one emitted flat rule line in front of an arbitrary
continuation. -/
theorem lex_def (name : String) (atoms : List Node) (r : List Char)
    (hn : goodName name = true) (hne : atoms ≠ [])
    (hall : atoms.all flatAtom = true) :
    tokensList ((defLineText (.Def name (.list [.Seq (.list atoms)]))).data ++ r) =
      (match tokensList r with
       | .ok ts => .ok (defRaw (.Def name (.list [.Seq (.list atoms)])) ++ ts)
       | .error e => .error e) := by
  have hshape : (defLineText (.Def name (.list [.Seq (.list atoms)]))).data ++ r =
      name.data ++ (':' :: ' ' :: ((atomsText atoms).data ++ '\n' :: r)) := by
    rw [defLineText]
    simp [String.data_append, List.append_assoc]
  rw [hshape]
  rw [tokensList_stepL _ _ _ (lexOne_rule name hn _ (by
    intro x hx
    simp only [List.head?_cons, Option.some.injEq] at hx
    subst hx
    decide))]
  rw [tokensList_stepL _ _ _ (lexOne_colon _)]
  have hhead : ∀ x, ((atomsText atoms).data ++ '\n' :: r).head? = some x →
      isSpaceChar x = false := by
    rcases atoms with _ | ⟨a, rest⟩
    · exact absurd rfl hne
    · have : (atomsText (a :: rest)).data ++ '\n' :: r =
          (atomText a).data ++ ((spacedText rest).data ++ '\n' :: r) := by
        rw [atomsText]
        simp [String.data_append, List.append_assoc]
      rw [this]
      exact atomText_head_not_space a (by
        simp only [List.all_cons, Bool.and_eq_true] at hall
        exact hall.1) _
  rw [tokensList_stepL _ _ _ (lexOne_space1 _ hhead)]
  rw [lex_atoms atoms r hall]
  rcases tokensList r with e | ts <;> simp [defRaw]

/-- Re-lexing a whole emitted flat grammar. -/
theorem lex_grammar :
    ∀ (defs : List Node), defs.all flatDef = true →
      tokensList (defsText defs).data = .ok (defsRaw defs) := by
  intro defs
  induction defs with
  | nil => intro _; rfl
  | cons d ds ih =>
    intro hall
    simp only [List.all_cons, Bool.and_eq_true] at hall
    obtain ⟨name, atoms, rfl, hn, hne, hatoms⟩ := flatDef_inv d hall.1
    have hshape : (defsText (.Def name (.list [.Seq (.list atoms)]) :: ds)).data =
        (defLineText (.Def name (.list [.Seq (.list atoms)]))).data ++
          (defsText ds).data := by
      rw [defsText]
      simp [String.data_append]
    rw [hshape, lex_def name atoms _ hn hne hatoms, ih hall.2]
    simp [defsRaw]

/-- Stripping the quotes the emitter added recovers the literal body. -/
theorem stripQuotes_quoted (s : String) : stripQuotes ("'" ++ s ++ "'") = s := by
  unfold stripQuotes
  simp [String.ext_iff, String.data_append, List.dropLast_concat]

/-- `read_pattern` consumes the re-lexed tokens of a flat atom list up to the
terminating `NEWLINE`, rebuilding exactly the original atoms. -/
theorem runRP_atoms :
    ∀ (atoms : List Node) (f : Nat) (alts : List (List Node)) (alt : List Node)
      (tail : List Token), atoms.all flatAtom = true → atoms.length < f →
      runRP f .NEWLINE alts alt (atoms.map atomToken ++ ⟨.NEWLINE, "\n"⟩ :: tail) =
        .ok (mkPattern (alts ++ [alt ++ atoms]), ⟨.NEWLINE, "\n"⟩, tail) := by
  intro atoms
  induction atoms with
  | nil =>
    intro f alts alt tail _ hf
    obtain ⟨f1, rfl⟩ : ∃ k, f = k + 1 := ⟨f - 1, by omega⟩
    simp only [List.map_nil, List.nil_append, List.append_nil]
    rfl
  | cons a rest ih =>
    intro f alts alt tail hall hf
    simp only [List.all_cons, Bool.and_eq_true] at hall
    simp only [List.length_cons] at hf
    obtain ⟨f1, rfl⟩ : ∃ k, f = k + 1 := ⟨f - 1, by omega⟩
    simp only [List.map_cons, List.cons_append]
    cases a with
    | Tok s =>
      have hb : runRP (f1 + 1) .NEWLINE alts alt
          (atomToken (.Tok s) :: (rest.map atomToken ++ ⟨.NEWLINE, "\n"⟩ :: tail)) =
          runRP f1 .NEWLINE alts (alt ++ [.Tok s])
            (rest.map atomToken ++ ⟨.NEWLINE, "\n"⟩ :: tail) := rfl
      rw [hb, ih f1 alts (alt ++ [Node.Tok s]) tail hall.2 (by omega),
        List.append_assoc, List.singleton_append]
    | Ref s =>
      have hb : runRP (f1 + 1) .NEWLINE alts alt
          (atomToken (.Ref s) :: (rest.map atomToken ++ ⟨.NEWLINE, "\n"⟩ :: tail)) =
          runRP f1 .NEWLINE alts (alt ++ [.Ref s])
            (rest.map atomToken ++ ⟨.NEWLINE, "\n"⟩ :: tail) := rfl
      rw [hb, ih f1 alts (alt ++ [Node.Ref s]) tail hall.2 (by omega),
        List.append_assoc, List.singleton_append]
    | Lit s =>
      have hb : runRP (f1 + 1) .NEWLINE alts alt
          (atomToken (.Lit s) :: (rest.map atomToken ++ ⟨.NEWLINE, "\n"⟩ :: tail)) =
          runRP f1 .NEWLINE alts (alt ++ [.Lit (stripQuotes ("'" ++ s ++ "'"))])
            (rest.map atomToken ++ ⟨.NEWLINE, "\n"⟩ :: tail) := rfl
      rw [hb, stripQuotes_quoted,
        ih f1 alts (alt ++ [Node.Lit s]) tail hall.2 (by omega),
        List.append_assoc, List.singleton_append]
    | Seq a => simp [flatAtom] at hall
    | Alt a => simp [flatAtom] at hall
    | Rep a => simp [flatAtom] at hall
    | Opt a => simp [flatAtom] at hall
    | Orp a => simp [flatAtom] at hall
    | Def n a => simp [flatAtom] at hall
    | Grammar r => simp [flatAtom] at hall
    | list l => simp [flatAtom] at hall

/-- `read_def` consumes one re-lexed flat rule line and rebuilds the original
`Def` node (pattern wrapped in the one-element `rule` list). -/
theorem readDef_flat (f : Nat) (name : String) (atoms : List Node)
    (tail : List Token) (hall : atoms.all flatAtom = true)
    (hf : atoms.length < f) :
    readDef f ⟨.RULENAME, name⟩
        (⟨.COLON, ":"⟩ :: (atoms.map atomToken ++ ⟨.NEWLINE, "\n"⟩ :: tail)) =
      .ok (.Def name (.list [.Seq (.list atoms)]), ⟨.NEWLINE, "\n"⟩, tail) := by
  rcases hstream : atoms.map atomToken ++ (⟨.NEWLINE, "\n"⟩ : Token) :: tail
      with _ | ⟨c2, r2⟩
  · exact absurd hstream (by simp)
  · have hrp := runRP_atoms atoms f [] [] tail hall hf
    rw [hstream] at hrp
    have hb : readDef f ⟨.RULENAME, name⟩ (⟨.COLON, ":"⟩ :: c2 :: r2) =
        (match runRP f .NEWLINE [] [] (c2 :: r2) with
         | .error e => .error e
         | .ok (p, c', r') => .ok (.Def name (.list [p]), c', r')) := rfl
    rw [hb]
    simp only [hrp]
    simp [mkPattern]

/-- The def loop, standing on the separating `NEWLINE`, consumes the re-lexed
flat rules and rebuilds them in order. -/
theorem parseDefs_after_newline :
    ∀ (defs : List Node) (acc : List Node) (f : Nat),
      defs.all flatDef = true → (defsToks defs).length + 1 < f →
      parseDefs f acc ⟨.NEWLINE, "\n"⟩ (defsToks defs ++ [⟨.EOF, ""⟩]) =
        .ok (.Grammar (.list (acc ++ defs))) := by
  intro defs
  induction defs with
  | nil =>
    intro acc f _ hf
    simp only [defsToks, List.length_nil] at hf
    obtain ⟨f1, rfl⟩ : ∃ k, f = k + 2 := ⟨f - 2, by omega⟩
    simp only [defsToks, List.nil_append, List.append_nil]
    rfl
  | cons d ds ih =>
    intro acc f hall hf
    simp only [List.all_cons, Bool.and_eq_true] at hall
    obtain ⟨name, atoms, rfl, hn, hne, hatoms⟩ := flatDef_inv d hall.1
    simp only [defsToks, defToks, List.length_append, List.length_cons,
      List.length_map] at hf
    obtain ⟨f1, rfl⟩ : ∃ k, f = k + 1 := ⟨f - 1, by omega⟩
    have hs : (defToks (.Def name (.list [.Seq (.list atoms)])) ++ defsToks ds)
        ++ [(⟨.EOF, ""⟩ : Token)] =
        ⟨.RULENAME, name⟩ :: ⟨.COLON, ":"⟩ ::
          (atoms.map atomToken ++ ⟨.NEWLINE, "\n"⟩ :: (defsToks ds ++ [⟨.EOF, ""⟩])) := by
      simp [defToks, List.append_assoc]
    rw [show defsToks (Node.Def name (.list [.Seq (.list atoms)]) :: ds) =
      defToks (.Def name (.list [.Seq (.list atoms)])) ++ defsToks ds from rfl, hs]
    have hb : parseDefs (f1 + 1) acc ⟨.NEWLINE, "\n"⟩
        (⟨.RULENAME, name⟩ :: ⟨.COLON, ":"⟩ ::
          (atoms.map atomToken ++ ⟨.NEWLINE, "\n"⟩ :: (defsToks ds ++ [⟨.EOF, ""⟩]))) =
        (match readDef (f1 + 1) ⟨.RULENAME, name⟩
            (⟨.COLON, ":"⟩ :: (atoms.map atomToken ++ ⟨.NEWLINE, "\n"⟩ ::
              (defsToks ds ++ [⟨.EOF, ""⟩]))) with
         | .error e => .error e
         | .ok (dd, c', r') => parseDefs f1 (acc ++ [dd]) c' r') := rfl
    rw [hb]
    simp only [readDef_flat (f1 + 1) name atoms (defsToks ds ++ [⟨.EOF, ""⟩])
      hatoms (by omega)]
    rw [ih (acc ++ [Node.Def name (.list [.Seq (.list atoms)])]) f1 hall.2 (by omega),
      List.append_assoc, List.singleton_append]

/-- The def loop from the first rule of a re-lexed flat grammar. -/
theorem parseDefs_start :
    ∀ (defs : List Node) (acc : List Node) (f : Nat),
      defs.all flatDef = true → (defsToks defs).length + 1 < f →
      parseDefsRun f acc (defsToks defs ++ [⟨.EOF, ""⟩]) =
        .ok (.Grammar (.list (acc ++ defs))) := by
  intro defs acc f hall hf
  cases defs with
  | nil =>
    simp only [defsToks, List.length_nil] at hf
    obtain ⟨f1, rfl⟩ : ∃ k, f = k + 1 := ⟨f - 1, by omega⟩
    simp only [defsToks, List.nil_append, List.append_nil]
    rfl
  | cons d ds =>
    simp only [List.all_cons, Bool.and_eq_true] at hall
    obtain ⟨name, atoms, rfl, hn, hne, hatoms⟩ := flatDef_inv d hall.1
    simp only [defsToks, defToks, List.length_append, List.length_cons,
      List.length_map] at hf
    obtain ⟨f1, rfl⟩ : ∃ k, f = k + 1 := ⟨f - 1, by omega⟩
    have hs : defsToks (Node.Def name (.list [.Seq (.list atoms)]) :: ds)
        ++ [(⟨.EOF, ""⟩ : Token)] =
        ⟨.RULENAME, name⟩ :: ⟨.COLON, ":"⟩ ::
          (atoms.map atomToken ++ ⟨.NEWLINE, "\n"⟩ :: (defsToks ds ++ [⟨.EOF, ""⟩])) := by
      simp [defsToks, defToks, List.append_assoc]
    rw [hs]
    have hb : parseDefsRun (f1 + 1) acc
        (⟨.RULENAME, name⟩ :: ⟨.COLON, ":"⟩ ::
          (atoms.map atomToken ++ ⟨.NEWLINE, "\n"⟩ :: (defsToks ds ++ [⟨.EOF, ""⟩]))) =
        (match readDef (f1 + 1) ⟨.RULENAME, name⟩
            (⟨.COLON, ":"⟩ :: (atoms.map atomToken ++ ⟨.NEWLINE, "\n"⟩ ::
              (defsToks ds ++ [⟨.EOF, ""⟩]))) with
         | .error e => .error e
         | .ok (dd, c', r') => parseDefs f1 (acc ++ [dd]) c' r') := rfl
    rw [hb]
    simp only [readDef_flat (f1 + 1) name atoms (defsToks ds ++ [⟨.EOF, ""⟩])
      hatoms (by omega)]
    rw [parseDefs_after_newline ds (acc ++ [Node.Def name (.list [.Seq (.list atoms)])])
      f1 hall.2 (by omega), List.append_assoc, List.singleton_append]

/-- Atom tokens survive the `SPACE`/`COMMENT` filter. -/
theorem filter_spacedRaw (rest : List Node) :
    (spacedRaw rest).filter (fun t => !(t.kind == .SPACE || t.kind == .COMMENT)) =
      rest.map atomToken := by
  induction rest with
  | nil => rfl
  | cons b bs ih =>
    rw [show spacedRaw (b :: bs) =
        ⟨.SPACE, " "⟩ :: atomToken b :: spacedRaw bs from rfl]
    rw [List.filter_cons_of_neg (by simp),
      List.filter_cons_of_pos (by cases b <;> rfl), ih, List.map_cons]

/-- Filtering the raw tokens of an atom list keeps exactly the atom tokens. -/
theorem filter_atomsRaw (atoms : List Node) :
    (atomsRaw atoms).filter (fun t => !(t.kind == .SPACE || t.kind == .COMMENT)) =
      atoms.map atomToken := by
  cases atoms with
  | nil => rfl
  | cons a rest =>
    rw [show atomsRaw (a :: rest) = atomToken a :: spacedRaw rest from rfl]
    rw [List.filter_cons_of_pos (by cases a <;> rfl), filter_spacedRaw,
      List.map_cons]

/-- Filtering the raw token stream of an emitted flat grammar yields the
filtered per-rule streams. -/
theorem filter_defsRaw :
    ∀ (defs : List Node), defs.all flatDef = true →
      (defsRaw defs).filter (fun t => !(t.kind == .SPACE || t.kind == .COMMENT)) =
        defsToks defs := by
  intro defs
  induction defs with
  | nil => intro _; rfl
  | cons d ds ih =>
    intro hall
    simp only [List.all_cons, Bool.and_eq_true] at hall
    obtain ⟨name, atoms, rfl, hn, hne, hatoms⟩ := flatDef_inv d hall.1
    simp only [defsRaw, defsToks]
    rw [List.filter_append, ih hall.2]
    rw [show defRaw (Node.Def name (.list [.Seq (.list atoms)])) =
        ⟨.RULENAME, name⟩ :: ⟨.COLON, ":"⟩ :: ⟨.SPACE, " "⟩ ::
          (atomsRaw atoms ++ [⟨.NEWLINE, "
"⟩]) from rfl]
    rw [List.filter_cons_of_pos (by simp), List.filter_cons_of_pos (by simp),
      List.filter_cons_of_neg (by simp), List.filter_append, filter_atomsRaw,
      List.filter_cons_of_pos (by simp), List.filter_nil]
    rfl

/-- `pure` on `Except` is `ok`. -/
theorem except_pure (a : α) : (pure a : Except Err α) = .ok a := rfl

/-- Bind on a successful `Except` just applies the continuation. -/
theorem except_bind_ok {α β : Type} (a : α) (f : α → Except Err β) :
    (Except.ok a >>= f) = f a := rfl

/-- `Emitter.emit` of a plain string at level 0 appends it to the sink (a
newline gets an empty indentation suffix). -/
theorem emitS_level0 (s o : String) : emitS s ⟨o, 0⟩ = .ok ⟨o ++ s, 0⟩ := by
  by_cases h : s = "\n"
  · subst h
    simp [emitS, emit1, emitNewline, indentation, String.join, String.append_empty]
  · simp [emitS, emit1, if_neg h]

/-- Walking one flat atom with the round-trip emitter writes its text. -/
theorem walk_atom (f : Nat) (a : Node) (ha : flatAtom a = true) (o : String) :
    walk ebnfVisitor (f + 1) a ⟨o, 0⟩ = .ok ⟨o ++ atomText a, 0⟩ := by
  cases a with
  | Tok s =>
    simp only [walk, nkind, ebnfVisitor, children, enterTokFn, List.foldlM_nil,
      except_pure, emitS_level0, atomText]
  | Ref s =>
    simp only [walk, nkind, ebnfVisitor, children, enterRefFn, List.foldlM_nil,
      except_pure, emitS_level0, atomText]
  | Lit s =>
    simp only [walk, nkind, ebnfVisitor, children, enterLitFn, List.foldlM_nil,
      except_pure, except_bind_ok, emitS_level0, atomText]
    simp [String.append_assoc]
  | Seq a => exact Bool.noConfusion ha
  | Alt a => exact Bool.noConfusion ha
  | Rep a => exact Bool.noConfusion ha
  | Opt a => exact Bool.noConfusion ha
  | Orp a => exact Bool.noConfusion ha
  | Def n a => exact Bool.noConfusion ha
  | Grammar r => exact Bool.noConfusion ha
  | list l => exact Bool.noConfusion ha

/-- `between`'s tail loop writes the space-prefixed texts of the remaining
atoms. -/
theorem betweenTail_atoms (f : Nat) :
    ∀ (rest : List Node) (o : String), rest.all flatAtom = true →
      between.betweenTail (walk ebnfVisitor (f + 1)) rest " " ⟨o, 0⟩ =
        .ok ⟨o ++ spacedText rest, 0⟩ := by
  intro rest
  induction rest with
  | nil =>
    intro o _
    simp [between.betweenTail, spacedText, String.append_empty]
  | cons b bs ih =>
    intro o hall
    simp only [List.all_cons, Bool.and_eq_true] at hall
    simp only [between.betweenTail, emitS_level0]
    simp only [walk_atom f b hall.1]
    rw [ih _ hall.2]
    simp [spacedText, String.append_assoc]

/-- `Emitter.between` writes the space-joined texts of a flat atom list. -/
theorem between_atoms (f : Nat) (atoms : List Node) (o : String)
    (hall : atoms.all flatAtom = true) :
    between (walk ebnfVisitor (f + 1)) atoms " " ⟨o, 0⟩ =
      .ok ⟨o ++ atomsText atoms, 0⟩ := by
  cases atoms with
  | nil => simp [between, atomsText, String.append_empty]
  | cons a rest =>
    simp only [List.all_cons, Bool.and_eq_true] at hall
    simp only [between]
    simp only [walk_atom f a hall.1]
    rw [betweenTail_atoms f rest _ hall.2]
    simp [atomsText, String.append_assoc]

/-- Walking a flat `Seq` with the round-trip emitter writes the space-joined
atom texts (via the `walkSeq` full-control override). -/
theorem walk_seq (f : Nat) (atoms : List Node) (o : String)
    (hall : atoms.all flatAtom = true) :
    walk ebnfVisitor (f + 2) (.Seq (.list atoms)) ⟨o, 0⟩ =
      .ok ⟨o ++ atomsText atoms, 0⟩ := by
  have h1 : walk ebnfVisitor (f + 2) (.Seq (.list atoms)) ⟨o, 0⟩ =
      between (walk ebnfVisitor (f + 1)) atoms " " ⟨o, 0⟩ := by
    simp only [walk, nkind, ebnfVisitor, walkSeqFn]
  rw [h1]
  exact between_atoms f atoms o hall

/-- Walking a `Def`'s one-element rule list (via `walklist`). -/
theorem walk_deflist (f : Nat) (atoms : List Node) (o : String)
    (hall : atoms.all flatAtom = true) :
    walk ebnfVisitor (f + 3) (.list [.Seq (.list atoms)]) ⟨o, 0⟩ =
      .ok ⟨o ++ atomsText atoms, 0⟩ := by
  have h1 : walk ebnfVisitor (f + 3) (.list [.Seq (.list atoms)]) ⟨o, 0⟩ =
      between (walk ebnfVisitor (f + 2)) [.Seq (.list atoms)] " " ⟨o, 0⟩ := by
    simp only [walk, nkind, ebnfVisitor, walklistFn]
  rw [h1]
  simp only [between]
  simp only [walk_seq f atoms o hall]
  simp only [between.betweenTail]

/-- Walking a flat rule with the round-trip emitter writes its line. -/
theorem walk_def (f : Nat) (name : String) (atoms : List Node) (o : String)
    (hall : atoms.all flatAtom = true) :
    walk ebnfVisitor (f + 4) (.Def name (.list [.Seq (.list atoms)])) ⟨o, 0⟩ =
      .ok ⟨o ++ defLineText (.Def name (.list [.Seq (.list atoms)])), 0⟩ := by
  have h1 : walk ebnfVisitor (f + 4) (.Def name (.list [.Seq (.list atoms)])) ⟨o, 0⟩ =
      walkDefFn (walk ebnfVisitor (f + 3))
        (.Def name (.list [.Seq (.list atoms)])) ⟨o, 0⟩ := by
    simp only [walk, nkind, ebnfVisitor]
  rw [h1]
  simp only [walkDefFn, emitS_level0, except_bind_ok]
  rw [walk_deflist f atoms (o ++ name ++ ": ") hall]
  simp only [except_bind_ok, emitS_level0]
  simp [defLineText, String.append_assoc]

/-- Folding the walker over a list of flat rules writes their lines in
order. -/
theorem walk_defs (f : Nat) :
    ∀ (defs : List Node) (o : String), defs.all flatDef = true →
      List.foldlM (fun acc c => walk ebnfVisitor (f + 4) c acc)
          (⟨o, 0⟩ : EmitState) defs =
        .ok ⟨o ++ defsText defs, 0⟩ := by
  intro defs
  induction defs with
  | nil =>
    intro o _
    simp [defsText, String.append_empty, except_pure]
  | cons d ds ih =>
    intro o hall
    simp only [List.all_cons, Bool.and_eq_true] at hall
    obtain ⟨name, atoms, rfl, hn, hne, hatoms⟩ := flatDef_inv d hall.1
    simp only [List.foldlM_cons]
    rw [walk_def f name atoms o hatoms]
    simp only [except_bind_ok]
    rw [ih _ hall.2]
    simp [defsText, String.append_assoc]

/-- Walking a flat grammar with the round-trip emitter writes the whole
emitted text. -/
theorem walk_grammar (f : Nat) (defs : List Node) (o : String)
    (hall : defs.all flatDef = true) :
    walk ebnfVisitor (f + 5) (.Grammar (.list defs)) ⟨o, 0⟩ =
      .ok ⟨o ++ defsText defs, 0⟩ := by
  have hc : ebnfVisitor.custom .Grammar = none := rfl
  have he : ebnfVisitor.enter .Grammar = none := rfl
  have hl : ebnfVisitor.leave .Grammar = none := rfl
  have h1 : ∀ m : Nat, walk ebnfVisitor (m + 1) (.Grammar (.list defs)) ⟨o, 0⟩ =
      (match List.foldlM (fun acc c => walk ebnfVisitor m c acc)
          (⟨o, 0⟩ : EmitState) defs with
       | .error e => .error e
       | .ok s2 => .ok s2) := by
    intro m
    simp only [walk, nkind, hc, he, hl, children]
    rcases List.foldlM (fun acc c => walk ebnfVisitor m c acc)
      (⟨o, 0⟩ : EmitState) defs with e | s2 <;> rfl
  rw [show walk ebnfVisitor (f + 5) (.Grammar (.list defs)) ⟨o, 0⟩ =
      walk ebnfVisitor ((f + 4) + 1) (.Grammar (.list defs)) ⟨o, 0⟩ from rfl,
    h1 (f + 4), walk_defs f defs o hall]

/-- The round-trip emitter succeeds on a flat grammar and produces its
emitted text, for any fuel covering the bounded nesting depth. -/
theorem ebnfString_flat (fuel : Nat) (G : Node) (hflat : flatGrammar G = true)
    (hf : 5 ≤ fuel) : ebnfString fuel G = .ok (grammarText G) := by
  obtain ⟨defs, rfl, hall⟩ := flatGrammar_inv G hflat
  obtain ⟨f, rfl⟩ : ∃ k, fuel = k + 5 := ⟨fuel - 5, by omega⟩
  unfold ebnfString
  rw [walk_grammar f defs "" hall]
  rw [show grammarText (.Grammar (.list defs)) = defsText defs from rfl,
    String.empty_append]

/-- Bridging the tail of `parse` to the def-loop runner. -/
theorem parse_run_eq (l : List Token) :
    (match l with
     | [] => (.error .stopIteration : Except Err Node)
     | t :: ts => parseDefs (ts.length + 2) [] t ts) =
      parseDefsRun (l.length + 1) [] l := by
  cases l <;> rfl

/-- Parsing the emitted text of a flat grammar recovers it exactly. -/
theorem parse_flat_text (defs : List Node) (hall : defs.all flatDef = true) :
    parse (defsText defs) = .ok (.Grammar (.list defs)) := by
  unfold parse
  simp only [lex_grammar defs hall]
  rw [filter_defsRaw defs hall]
  rw [parse_run_eq]
  have hps := parseDefs_start defs []
    ((defsToks defs ++ [(⟨.EOF, ""⟩ : Token)]).length + 1)
    hall (by simp [List.length_append])
  rw [List.nil_append] at hps
  exact hps

/-- Claim C1, counterexample: the literal round-trip claim fails.  The rule
`a: b+` parses to a `Rep` node, but `EBNFEmitter` has no `walkRep` method, so
the emitter silently walks through the `Rep` and prints `a: b`, which
re-parses to a different tree (the repetition marker is lost). -/
theorem c1_counterexample :
    parse "a: b+\n" =
      .ok (.Grammar (.list [.Def "a" (.list [.Seq (.list [.Rep (.Ref "b")])])])) ∧
    ebnfString 9
        (.Grammar (.list [.Def "a" (.list [.Seq (.list [.Rep (.Ref "b")])])])) =
      .ok "a: b\n" ∧
    parse "a: b\n" =
      .ok (.Grammar (.list [.Def "a" (.list [.Seq (.list [.Ref "b"])])])) ∧
    Node.Grammar (.list [.Def "a" (.list [.Seq (.list [.Rep (.Ref "b")])])]) ≠
      .Grammar (.list [.Def "a" (.list [.Seq (.list [.Ref "b"])])]) := by
  refine ⟨rfl, rfl, rfl, fun h => ?_⟩
  injection h with h1
  injection h1 with h2
  injection h2 with h3 h4
  injection h3 with h5 h6
  injection h6 with h7
  injection h7 with h8 h9
  injection h8 with h10
  injection h10 with h11
  injection h11 with h12 h13
  injection h12

/-- Claim C1 (amended): for grammars in the flat fragment — every rule is a
nonempty sequence of special tokens, literals and rule references, with no
alternation, repetition, optionals or grouping — the round trip holds: if a
text parses to such a grammar, the `EBNFEmitter` output re-parses to exactly
the same tree. -/
theorem c1_roundtrip_flat (g : String) (G : Node) (fuel : Nat)
    (hg : parse g = .ok G) (hflat : flatGrammar G = true) (hfuel : 5 ≤ fuel) :
    ∃ out, ebnfString fuel G = .ok out ∧ parse out = .ok G := by
  obtain ⟨defs, rfl, hall⟩ := flatGrammar_inv G hflat
  refine ⟨grammarText (.Grammar (.list defs)),
    ebnfString_flat fuel _ hflat hfuel, ?_⟩
  rw [show grammarText (.Grammar (.list defs)) = defsText defs from rfl]
  exact parse_flat_text defs hall

/-- Witness for `c1_roundtrip_flat` at the spec's own example grammar. -/
theorem c1_witness :
    ∃ out, ebnfString 5
        (.Grammar (.list [.Def "greeting"
          (.list [.Seq (.list [.Lit "hi", .Tok "NAME"])])])) = .ok out ∧
      parse out =
        .ok (.Grammar (.list [.Def "greeting"
          (.list [.Seq (.list [.Lit "hi", .Tok "NAME"])])])) :=
  c1_roundtrip_flat "greeting: 'hi' NAME\n"
    (.Grammar (.list [.Def "greeting"
      (.list [.Seq (.list [.Lit "hi", .Tok "NAME"])])]))
    5 rfl rfl (by decide)

end Symreg
